import Mathlib

/-!
Verification development for the `ascii_charts` pie/donut renderer
(`src/pie.py`).  The Python function `pie` is embedded shallowly:

* Python floats are modelled as exact real numbers; float literals
  (`1e-6`, `2.4`, `0.45`, `0.99`) are modelled as the corresponding
  decimal rationals.  Sample coordinates are rationals cast into `ℝ`.
* `math.atan2 y x` is `Complex.arg ⟨x, y⟩` (both have range `(-π, π]`
  and send the origin to `0`); `math.hypot x y` is `Real.sqrt (x²+y²)`;
  Python's float `%` (result signed like the divisor) is `pyMod`.
* Python strings are `String`s; grid rows are kept as `List Char` and
  packed into `String`s during final assembly (`"".join(row)`).
* `counts` entries are modelled as integers (`total = sum(counts)`,
  compared with `0` exactly as the source does); the Python dict of
  votes is an insertion-ordered association list, which is exactly the
  iteration order `max` sees in CPython.
* `label_mode` is an enumeration; the source treats any string other
  than `"value"`/`"both"` like `"percent"`, so the enumeration folds the
  fallback into `.percent`.  A `border` of `None` or `""` is `none`.
-/

open Real

open scoped Classical

/-- Python float modulus `x % m` (the result has the sign of the divisor). -/
noncomputable def pyMod (x m : ℝ) : ℝ := x - m * ⌊x / m⌋

/-- `math.atan2 y x`: the argument of the point `(x, y)`, range `(-π, π]`. -/
noncomputable def atan2 (y x : ℝ) : ℝ := Complex.arg ⟨x, y⟩

/-- One wedge `[label, angle_start, angle_end, fill_char, fraction, value]`
as built by the wedge loop of `pie`. -/
structure Wedge where
  label : String
  a0 : ℝ
  a1 : ℝ
  ch : Char
  frac : ℚ
  val : ℤ

/-- The `label_mode` parameter (unknown strings behave like `"percent"`). -/
inductive LabelMode
  | percent
  | value
  | both

/-- Alignment argument of the inner `place` helper. -/
inductive Align
  | left
  | right
  | center

/-- All keyword parameters of `pie`, with the source's default values
(`2.4 = 12/5`, `0.45 = 45/100` as decimal rationals). -/
structure PieCfg where
  radius : ℕ := 12
  hole : ℚ := 0
  start_at_12 : Bool := true
  clockwise : Bool := true
  samples : ℕ := 4
  y_scale : ℚ := 12 / 5
  border : Option Char := some '·'
  border_softness : ℚ := 45 / 100
  chars : Option (List Char) := none
  show_legend : Bool := true
  label_mode : LabelMode := .percent
  label_max : ℕ := 4
  title : Option String := none

/-- The sentinel returned when labels/counts are empty or of unequal length. -/
def errInvalid : String :=
  "Invalid input: labels and counts must be same-length non-empty lists."

/-- The sentinel returned when the sum of counts is `≤ 0`. -/
def errNoData : String := "No data."

/-- `default_chars`, the 10-symbol fill palette. -/
def defaultChars : List Char := ['█', '░', '▒', '▓', '▩', '▦', '▧', '▨', '▤', '▥']

/-- `glyphs = (chars or default_chars)`: `None` and the empty list are falsy. -/
def glyphsOf (cfg : PieCfg) : List Char :=
  match cfg.chars with
  | some l => if l = [] then defaultChars else l
  | none => defaultChars

/-- The wedge-building loop: `i` is the running index, `cum` the running
cumulative angle; `frac = val / total`, `ang = 2π·frac`. -/
noncomputable def buildWedgesAux (glyphs : List Char) (total : ℤ) :
    ℕ → ℝ → List (String × ℤ) → List Wedge
  | _, _, [] => []
  | i, cum, (lab, v) :: rest =>
    let frac : ℚ := (v : ℚ) / (total : ℚ)
    let ang : ℝ := 2 * π * (frac : ℝ)
    ⟨lab, cum, cum + ang, glyphs.getD (i % glyphs.length) ' ', frac, v⟩ ::
      buildWedgesAux glyphs total (i + 1) (cum + ang) rest

/-- The wedge list built from `zip(labels, counts)` starting at `cum = 0`. -/
noncomputable def buildWedges (glyphs : List Char) (total : ℤ)
    (pairs : List (String × ℤ)) : List Wedge :=
  buildWedgesAux glyphs total 0 0 pairs

/-- The inner `orient` closure: raw analytic angle to display angle. -/
noncomputable def orient (s12 cw : Bool) (a : ℝ) : ℝ :=
  let a1 := if a < 0 then a + 2 * π else a
  let a2 := if s12 then pyMod (a1 - π / 2) (2 * π) else a1
  if cw then pyMod (-a2) (2 * π) else a2

/-- The float literal `1e-6` (as a decimal rational). -/
def epsQ : ℚ := 1 / 1000000

/-- `inner = max(0.0, min(0.99, float(hole))) * radius`. -/
def innerOf (cfg : PieCfg) : ℚ := max 0 (min (99 / 100) cfg.hole) * cfg.radius

/-- `step = 1.0 / (samples + 1)`. -/
def stepOf (cfg : PieCfg) : ℚ := 1 / ((cfg.samples : ℚ) + 1)

/-- `offsets = [(k+1)*step - 0.5 for k in range(samples)]`. -/
def offsets (cfg : PieCfg) : List ℚ :=
  (List.range cfg.samples).map fun k : ℕ => ((k : ℚ) + 1) * stepOf cfg - 1 / 2

/-- The supersampling scan order: outer loop over `dy`, inner over `dx`,
both over `offsets` in ascending list order. -/
def samplePairs (cfg : PieCfg) : List (ℚ × ℚ) :=
  (offsets cfg).flatMap fun dy => (offsets cfg).map fun dx => (dy, dx)

/-- Sample coordinates `x = i+dx`, `y = (j+dy)/y_scale` of cell `(i, j)`
and in-cell offset `d = (dy, dx)`. -/
def sampleXY (cfg : PieCfg) (i j : ℤ) (d : ℚ × ℚ) : ℚ × ℚ :=
  ((i : ℚ) + d.2, ((j : ℚ) + d.1) / cfg.y_scale)

/-- `r = math.hypot x y` for rational sample coordinates. -/
noncomputable def rOf (x y : ℚ) : ℝ := Real.sqrt ((x : ℝ) ^ 2 + (y : ℝ) ^ 2)

/-- The sample-discard test: `r > radius + 1e-6 or r < inner - 1e-6`. -/
def discards (cfg : PieCfg) (i j : ℤ) (d : ℚ × ℚ) : Prop :=
  rOf (sampleXY cfg i j d).1 (sampleXY cfg i j d).2 > (cfg.radius : ℝ) + (epsQ : ℝ) ∨
  rOf (sampleXY cfg i j d).1 (sampleXY cfg i j d).2 < (innerOf cfg : ℝ) - (epsQ : ℝ)

/-- The border-vote test:
`border and (abs(r-radius)<border_softness or (inner>0 and abs(r-inner)<border_softness))`. -/
def borderHit (cfg : PieCfg) (i j : ℤ) (d : ℚ × ℚ) : Prop :=
  cfg.border.isSome = true ∧
    (|rOf (sampleXY cfg i j d).1 (sampleXY cfg i j d).2 - (cfg.radius : ℝ)| <
        (cfg.border_softness : ℝ) ∨
      ((innerOf cfg : ℝ) > 0 ∧
        |rOf (sampleXY cfg i j d).1 (sampleXY cfg i j d).2 - (innerOf cfg : ℝ)| <
          (cfg.border_softness : ℝ)))

/-- `ang = orient(math.atan2(y, x))` for a kept sample. -/
noncomputable def sampleAng (cfg : PieCfg) (i j : ℤ) (d : ℚ × ℚ) : ℝ :=
  orient cfg.start_at_12 cfg.clockwise
    (atan2 ((sampleXY cfg i j d).2 : ℝ) ((sampleXY cfg i j d).1 : ℝ))

/-- The `wedge_char` lookup: first wedge whose interval condition holds;
the last wedge additionally matches `ang >= a0 or ang < a1 % 2π`;
`" "` is the fall-through safety net. -/
noncomputable def wedge_char : List Wedge → ℝ → Char
  | [], _ => ' '
  | [w], ang =>
    if (w.a0 ≤ ang ∧ ang < w.a1) ∨ (w.a0 ≤ ang ∨ ang < pyMod w.a1 (2 * π)) then w.ch
    else ' '
  | w :: w2 :: rest, ang =>
    if w.a0 ≤ ang ∧ ang < w.a1 then w.ch else wedge_char (w2 :: rest) ang

/-- `votes[ch] = votes.get(ch, 0) + 1` on a CPython dict: existing keys keep
their position, new keys are appended (insertion order). -/
def addVote : List (Char × ℕ) → Char → List (Char × ℕ)
  | [], c => [(c, 1)]
  | (a, n) :: t, c => if a = c then (a, n + 1) :: t else (a, n) :: addVote t c

/-- The vote dict produced by a sequence of per-sample votes in scan order. -/
def buildVotes (l : List Char) : List (Char × ℕ) := l.foldl addVote []

/-- Python `max(..., key=value)`: keeps the current item unless a strictly
greater value appears, so the first maximal item in iteration order wins. -/
def maxPair : Char × ℕ → List (Char × ℕ) → Char × ℕ
  | p, [] => p
  | p, q :: t => maxPair (if q.2 > p.2 then q else p) t

/-- `max(votes.items(), key=lambda kv: kv[1])[0]` (arbitrary on the empty
dict, which the caller rules out via `inside == 0`). -/
def firstMax : List (Char × ℕ) → Char
  | [] => ' '
  | p :: t => (maxPair p t).1

/-- One iteration of the supersampling loop body, acting on the state
`(votes, border_vote, inside)`. -/
noncomputable def sampleStep (cfg : PieCfg) (ws : List Wedge) (i j : ℤ)
    (acc : List (Char × ℕ) × ℕ × ℕ) (d : ℚ × ℚ) : List (Char × ℕ) × ℕ × ℕ :=
  if discards cfg i j d then acc
  else
    (addVote acc.1 (wedge_char ws (sampleAng cfg i j d)),
     acc.2.1 + (if borderHit cfg i j d then 1 else 0),
     acc.2.2 + 1)

/-- The full supersampling pass over one cell. -/
noncomputable def sampleCell (cfg : PieCfg) (ws : List Wedge) (i j : ℤ) :
    List (Char × ℕ) × ℕ × ℕ :=
  (samplePairs cfg).foldl (sampleStep cfg ws i j) ([], 0, 0)

/-- The glyphs voted by the kept samples of a cell, in scan order
(a bookkeeping view of the same loop, used to state claim C2). -/
noncomputable def keptChars (cfg : PieCfg) (ws : List Wedge) (i j : ℤ) : List Char :=
  (samplePairs cfg).filterMap fun d =>
    if discards cfg i j d then none else some (wedge_char ws (sampleAng cfg i j d))

/-- The number of kept samples of a cell that also hit the border band. -/
noncomputable def borderCount (cfg : PieCfg) (i j : ℤ) : ℕ :=
  ((samplePairs cfg).filter fun d =>
    decide (¬discards cfg i j d ∧ borderHit cfg i j d)).length

/-- Cell resolution: blank if no sample was inside; else the border glyph if
`border_vote > inside // 3`; else the first maximal vote. -/
def resolveCell (cfg : PieCfg) (t : List (Char × ℕ) × ℕ × ℕ) : Char :=
  if t.2.2 = 0 then ' '
  else
    let ch := firstMax t.1
    match cfg.border with
    | some b => if t.2.1 > t.2.2 / 3 then b else ch
    | none => ch

/-- The character rendered at cell `(i, j)`. -/
noncomputable def cellChar (cfg : PieCfg) (ws : List Wedge) (i j : ℤ) : Char :=
  resolveCell cfg (sampleCell cfg ws i j)

/-- The rasterized body: rows for `j = -radius .. radius`, columns for
`i = -radius .. radius`. -/
noncomputable def rasterLines (cfg : PieCfg) (ws : List Wedge) : List (List Char) :=
  (List.range (2 * cfg.radius + 1)).map fun jj : ℕ =>
    (List.range (2 * cfg.radius + 1)).map fun ii : ℕ =>
      cellChar cfg ws ((ii : ℤ) - (cfg.radius : ℤ)) ((jj : ℤ) - (cfg.radius : ℤ))

/-- Round to the nearest integer, ties to even (the rounding of `"%.1f"`,
applied here to the exact rational value). -/
def roundHalfEven (q : ℚ) : ℤ :=
  let f := ⌊q⌋
  let r := q - f
  if r < 1 / 2 then f
  else if 1 / 2 < r then f + 1
  else if f % 2 = 0 then f else f + 1

/-- `f"{q:.1f}"` on the exact rational value `q`. -/
def fmtFixed1 (q : ℚ) : String :=
  let n := roundHalfEven (q * 10)
  (if n < 0 then "-" else "") ++ toString (n.natAbs / 10) ++ "." ++ toString (n.natAbs % 10)

/-- The inner `fmt` label formatter. -/
def fmt (mode : LabelMode) (w : Wedge) : String :=
  match mode with
  | .percent => w.label ++ " " ++ fmtFixed1 (w.frac * 100) ++ "%"
  | .value => w.label ++ " " ++ toString w.val
  | .both =>
    w.label ++ " " ++ toString w.val ++ " (" ++ fmtFixed1 (w.frac * 100) ++ "%)"

/-- `next((k for k,c in enumerate(row) if c != " "), None)`. -/
def firstNB : List Char → Option ℕ
  | [] => none
  | c :: t => if c ≠ ' ' then some 0 else (firstNB t).map (· + 1)

/-- `len(row)-1 - next((k for k,c in enumerate(reversed(row)) if c != " "), 0)`:
the last non-blank column (`0`-default on an all-blank row). -/
def lastNB (row : List Char) : ℕ := row.length - 1 - (firstNB row.reverse).getD 0

/-- The character-overwrite loop of `place`:
`for idx, ch in enumerate(text): col = start+idx; if 0 <= col < len(row): row[col] = ch`. -/
def writeFrom : List Char → ℤ → List Char → List Char
  | row, _, [] => row
  | row, start, c :: cs =>
    writeFrom (if 0 ≤ start ∧ start < (row.length : ℤ) then row.set start.toNat c else row)
      (start + 1) cs

/-- The inner `place` helper, acting on the list of grid rows. -/
def place (ls : List (List Char)) (row_idx : ℕ) (text : String) (al : Align) :
    List (List Char) :=
  match ls.get? row_idx with
  | none => ls
  | some row =>
    match firstNB row with
    | none => ls
    | some first =>
      let last := lastNB row
      if last ≤ first then ls
      else
        let left_limit : ℤ := (first : ℤ) + 1
        let right_limit : ℤ := (last : ℤ) - 1
        let cap : ℤ := right_limit - left_limit + 1
        let text1 : List Char := (" " ++ text ++ " ").data
        let text2 : List Char :=
          if (text1.length : ℤ) > cap then text1.take (max 0 cap).toNat else text1
        let start : ℤ :=
          match al with
          | .left => left_limit
          | .right => right_limit - (text2.length : ℤ) + 1
          | .center => left_limit + Int.fdiv (cap - (text2.length : ℤ)) 2
        ls.set row_idx (writeFrom row start text2)

/-- Stable insertion (descending by `frac`): `w` goes before the first kept
element whose fraction it reaches. -/
def insertDesc (w : Wedge) : List Wedge → List Wedge
  | [] => [w]
  | x :: t => if x.frac ≤ w.frac then w :: x :: t else x :: insertDesc w t

/-- `sorted(wedges, key=lambda w: w[4], reverse=True)`: Python's sort is
stable, and a stable descending sort is unique, so insertion sort (with
right-to-left insertion) produces the same list. -/
def sortByFracDesc (ws : List Wedge) : List Wedge := ws.foldr insertDesc []

/-- Target row and alignment for the `k`-th ranked label:
`offset = (k//2+1)*(2 if k>=2 else 1)`, up for even `k`, down for odd `k`,
clamped to `[0, h-1]`; left-aligned for even `k`, right for odd. -/
def targetFor (h k : ℕ) : ℕ × Align :=
  let mid := h / 2
  let offset : ℕ := (k / 2 + 1) * (if k ≥ 2 then 2 else 1)
  let row : ℤ := if k % 2 = 0 then (mid : ℤ) - (offset : ℤ) else (mid : ℤ) + (offset : ℤ)
  ((max 0 (min ((h : ℤ) - 1) row)).toNat, if k % 2 = 0 then Align.left else Align.right)

/-- The label-overlay pass: skipped when `label_max` is falsy (`0`) or no
wedge exists; otherwise the top `label_max` wedges by fraction are placed
in rank order. -/
def applyLabels (cfg : PieCfg) (ws : List Wedge) (lines : List (List Char)) :
    List (List Char) :=
  if cfg.label_max ≠ 0 ∧ 0 < ws.length then
    let ordered := (sortByFracDesc ws).take cfg.label_max
    let targets := (List.range ordered.length).map (targetFor lines.length)
    (ordered.zip targets).foldl
      (fun ls wt => place ls wt.2.1 (fmt cfg.label_mode wt.1) wt.2.2) lines
  else lines

/-- One legend entry `f"{w[3]} {w[0]} {w[5]} ({w[4]*100:.1f}%)"`. -/
def legendEntry (w : Wedge) : String :=
  Char.toString w.ch ++ " " ++ w.label ++ " " ++ toString w.val ++ " (" ++
    fmtFixed1 (w.frac * 100) ++ "%)"

/-- CPython `str.center(width, fill)`:
`marg = width - len; left = marg // 2 + (marg & width & 1)`. -/
def pyCenter (s : String) (width : ℕ) (fill : Char) : String :=
  if s.length ≥ width then s
  else
    let marg := width - s.length
    let left := marg / 2 + (marg &&& width &&& 1)
    String.mk (List.replicate left fill) ++ s ++ String.mk (List.replicate (marg - left) fill)

/-- Python `sep.join(parts)`. -/
def pyJoin (sep : String) : List String → String
  | [] => ""
  | [s] => s
  | s :: s2 :: rest => s ++ sep ++ pyJoin sep (s2 :: rest)

/-- The legend line `" | ".join(legend_parts)`. -/
def legendLineOf (ws : List Wedge) : String := pyJoin " | " (ws.map legendEntry)

/-- The wedges a validated `pie` call builds. -/
noncomputable def pieWedges (labels : List String) (counts : List ℤ) (cfg : PieCfg) :
    List Wedge :=
  buildWedges (glyphsOf cfg) counts.sum (labels.zip counts)

/-- The full renderer `pie(labels, counts, **cfg)`. -/
noncomputable def pie (labels : List String) (counts : List ℤ) (cfg : PieCfg) : String :=
  if labels = [] ∨ counts = [] ∨ labels.length ≠ counts.length then errInvalid
  else if counts.sum ≤ 0 then errNoData
  else
    let wedges := pieWedges labels counts cfg
    let lines := applyLabels cfg wedges (rasterLines cfg wedges)
    let legendL : List String :=
      if cfg.show_legend then [legendLineOf wedges] else []
    let titleL : List String :=
      match cfg.title with
      | some t => if t = "" then [] else [pyCenter t (cfg.radius * 2 + 20) '=', ""]
      | none => []
    pyJoin "\n" (titleL ++ lines.map String.mk ++ legendL)

/-! ### Lemmas about `pyMod` and `orient` -/

lemma pyMod_eq_fract {m : ℝ} (hm : m ≠ 0) (x : ℝ) :
    pyMod x m = m * Int.fract (x / m) := by
  unfold pyMod Int.fract
  field_simp

lemma pyMod_mem_Ico {m : ℝ} (hm : 0 < m) (x : ℝ) : pyMod x m ∈ Set.Ico 0 m := by
  rw [pyMod_eq_fract hm.ne']
  constructor
  · exact mul_nonneg hm.le (Int.fract_nonneg _)
  · calc m * Int.fract (x / m) < m * 1 :=
        (mul_lt_mul_left hm).mpr (Int.fract_lt_one (x / m))
    _ = m := mul_one m

lemma pyMod_eq_self {m : ℝ} (hm : 0 < m) {x : ℝ} (hx : x ∈ Set.Ico 0 m) :
    pyMod x m = x := by
  rw [pyMod_eq_fract hm.ne']
  have h1 : Int.fract (x / m) = x / m := by
    rw [Int.fract_eq_self]
    exact ⟨div_nonneg hx.1 hm.le, (div_lt_one hm).mpr hx.2⟩
  rw [h1]
  field_simp

lemma pyMod_sub_int_mul {m : ℝ} (hm : m ≠ 0) (x : ℝ) (k : ℤ) :
    pyMod (x - m * k) m = pyMod x m := by
  rw [pyMod_eq_fract hm, pyMod_eq_fract hm]
  have h1 : (x - m * k) / m = x / m - k := by
    field_simp
  rw [h1, Int.fract_sub_int]

lemma pyMod_shift_cancel {m : ℝ} (hm : 0 < m) (c : ℝ) {x : ℝ} (hx : x ∈ Set.Ico 0 m) :
    pyMod (pyMod (x - c) m + c) m = x := by
  have h1 : pyMod (x - c) m + c = x - m * ⌊(x - c) / m⌋ := by
    unfold pyMod
    ring
  rw [h1, pyMod_sub_int_mul hm.ne', pyMod_eq_self hm hx]

lemma pyMod_neg_neg {m : ℝ} (hm : 0 < m) {x : ℝ} (hx : x ∈ Set.Ico 0 m) :
    pyMod (-pyMod (-x) m) m = x := by
  rcases eq_or_lt_of_le hx.1 with h0 | h0
  · have hx0 : x = 0 := h0.symm
    subst hx0
    have h1 : pyMod (-0 : ℝ) m = 0 := by
      rw [neg_zero, pyMod_eq_self hm ⟨le_refl 0, hm⟩]
    rw [h1, neg_zero, pyMod_eq_self hm ⟨le_refl 0, hm⟩]
  · have h1 : pyMod (-x) m = m - x := by
      have h2 : (-x : ℝ) = (m - x) - m * (1 : ℤ) := by
        push_cast
        ring
      rw [h2, pyMod_sub_int_mul hm.ne']
      exact pyMod_eq_self hm ⟨by linarith [hx.2], by linarith⟩
    have h3 : -(m - x) = x - m * (1 : ℤ) := by
      push_cast
      ring
    rw [h1, h3, pyMod_sub_int_mul hm.ne', pyMod_eq_self hm hx]

/-- The inverse display-to-raw transform, used to prove that `orient` is a
bijection on `[0, 2π)`: undo the winding flip, then undo the 12-o'clock
rotation. -/
noncomputable def orientInv (s12 cw : Bool) (b : ℝ) : ℝ :=
  let b1 := if cw then pyMod (-b) (2 * π) else b
  if s12 then pyMod (b1 + π / 2) (2 * π) else b1

lemma orient_mapsTo (s12 cw : Bool) :
    Set.MapsTo (orient s12 cw) (Set.Ico 0 (2 * π)) (Set.Ico 0 (2 * π)) := by
  intro a ha
  have hnl : ¬a < 0 := not_lt.mpr ha.1
  cases s12 <;> cases cw <;>
    simp only [orient, if_neg hnl, Bool.false_eq_true, if_false, if_true]
  · exact ha
  · exact pyMod_mem_Ico Real.two_pi_pos _
  · exact pyMod_mem_Ico Real.two_pi_pos _
  · exact pyMod_mem_Ico Real.two_pi_pos _

lemma orientInv_mapsTo (s12 cw : Bool) :
    Set.MapsTo (orientInv s12 cw) (Set.Ico 0 (2 * π)) (Set.Ico 0 (2 * π)) := by
  intro b hb
  cases s12 <;> cases cw <;>
    simp only [orientInv, Bool.false_eq_true, if_false, if_true]
  · exact hb
  · exact pyMod_mem_Ico Real.two_pi_pos _
  · exact pyMod_mem_Ico Real.two_pi_pos _
  · exact pyMod_mem_Ico Real.two_pi_pos _

lemma orientInv_orient (s12 cw : Bool) {a : ℝ} (ha : a ∈ Set.Ico 0 (2 * π)) :
    orientInv s12 cw (orient s12 cw a) = a := by
  have hnl : ¬a < 0 := not_lt.mpr ha.1
  have hrot : pyMod (a - π / 2) (2 * π) ∈ Set.Ico 0 (2 * π) :=
    pyMod_mem_Ico Real.two_pi_pos _
  cases s12 <;> cases cw <;>
    simp only [orient, orientInv, if_neg hnl, Bool.false_eq_true, if_false, if_true]
  · rw [pyMod_neg_neg Real.two_pi_pos ha]
  · rw [pyMod_shift_cancel Real.two_pi_pos (π / 2) ha]
  · rw [pyMod_neg_neg Real.two_pi_pos hrot,
      pyMod_shift_cancel Real.two_pi_pos (π / 2) ha]

lemma orient_orientInv (s12 cw : Bool) {b : ℝ} (hb : b ∈ Set.Ico 0 (2 * π)) :
    orient s12 cw (orientInv s12 cw b) = b := by
  have hflip : pyMod (-b) (2 * π) ∈ Set.Ico 0 (2 * π) :=
    pyMod_mem_Ico Real.two_pi_pos _
  have hmain : orientInv s12 cw b ∈ Set.Ico 0 (2 * π) := orientInv_mapsTo s12 cw hb
  have hnl : ¬orientInv s12 cw b < 0 := not_lt.mpr hmain.1
  cases s12 <;> cases cw <;>
    simp only [orientInv, Bool.false_eq_true, if_false, if_true] at hnl hmain ⊢ <;>
    simp only [orient, if_neg hnl, Bool.false_eq_true, if_false, if_true]
  · rw [pyMod_neg_neg Real.two_pi_pos hb]
  · have hs : pyMod (pyMod (b + π / 2) (2 * π) - π / 2) (2 * π) = b := by
      have := pyMod_shift_cancel Real.two_pi_pos (-(π / 2)) hb
      simpa using this
    rw [hs]
  · have hs : pyMod (pyMod (pyMod (-b) (2 * π) + π / 2) (2 * π) - π / 2) (2 * π) =
        pyMod (-b) (2 * π) := by
      have := pyMod_shift_cancel Real.two_pi_pos (-(π / 2)) hflip
      simpa using this
    rw [hs, pyMod_neg_neg Real.two_pi_pos hb]

/-- C3: for each of the four combinations of the `startAt12` and `clockwise`
flags, `orient` is a bijection from the half-open interval `[0, 2π)` onto
`[0, 2π)`. -/
theorem orient_bijOn_Ico (s12 cw : Bool) :
    Set.BijOn (orient s12 cw) (Set.Ico 0 (2 * π)) (Set.Ico 0 (2 * π)) :=
  Set.InvOn.bijOn
    ⟨fun _ ha => orientInv_orient s12 cw ha, fun _ hb => orient_orientInv s12 cw hb⟩
    (orient_mapsTo s12 cw) (orientInv_mapsTo s12 cw)

lemma orient_mem (s12 cw : Bool) {a : ℝ} (h1 : -(2 * π) ≤ a) (h2 : a < 2 * π) :
    orient s12 cw a ∈ Set.Ico 0 (2 * π) := by
  have ha1 : (if a < 0 then a + 2 * π else a) ∈ Set.Ico 0 (2 * π) := by
    by_cases h : a < 0
    · rw [if_pos h]
      exact ⟨by linarith, by linarith⟩
    · rw [if_neg h]
      exact ⟨not_lt.mp h, h2⟩
  cases s12 <;> cases cw <;>
    simp only [orient, Bool.false_eq_true, if_false, if_true]
  · exact ha1
  · exact pyMod_mem_Ico Real.two_pi_pos _
  · exact pyMod_mem_Ico Real.two_pi_pos _
  · exact pyMod_mem_Ico Real.two_pi_pos _

/-! ### The wedge list in closed form -/

/-- `frac = val / total` of one `(label, value)` pair. -/
def fracQ (total : ℤ) (p : String × ℤ) : ℚ := (p.2 : ℚ) / (total : ℚ)

/-- The wedge the loop produces at index `k`, in closed form: its raw
angular interval is `[2π·S k, 2π·S (k+1))` where `S k` sums the first `k`
fractions. -/
noncomputable def wedgeAt (g : List Char) (total : ℤ) (pairs : List (String × ℤ))
    (k : ℕ) : Wedge :=
  ⟨(pairs.getD k ("", 0)).1,
   2 * π * ((((pairs.take k).map (fracQ total)).sum : ℚ) : ℝ),
   2 * π * ((((pairs.take (k + 1)).map (fracQ total)).sum : ℚ) : ℝ),
   g.getD (k % g.length) ' ',
   fracQ total (pairs.getD k ("", 0)),
   (pairs.getD k ("", 0)).2⟩

lemma buildWedgesAux_eq (g : List Char) (total : ℤ) (pairs : List (String × ℤ)) :
    ∀ (i : ℕ) (cum : ℝ), buildWedgesAux g total i cum pairs =
      (List.range pairs.length).map fun k =>
        ⟨(pairs.getD k ("", 0)).1,
         cum + 2 * π * ((((pairs.take k).map (fracQ total)).sum : ℚ) : ℝ),
         cum + 2 * π * ((((pairs.take (k + 1)).map (fracQ total)).sum : ℚ) : ℝ),
         g.getD ((i + k) % g.length) ' ',
         fracQ total (pairs.getD k ("", 0)),
         (pairs.getD k ("", 0)).2⟩ := by
  induction pairs with
  | nil => intro i cum; simp [buildWedgesAux]
  | cons p rest ih =>
    intro i cum
    obtain ⟨lab, v⟩ := p
    rw [buildWedgesAux]
    rw [List.length_cons, List.range_succ_eq_map, List.map_cons, List.map_map]
    congr 1
    · simp only [List.getD_cons_zero, List.take_zero, List.map_nil, List.sum_nil,
        List.take_succ_cons, List.map_cons, List.sum_cons, Nat.add_zero,
        Wedge.mk.injEq, fracQ]
      and_intros <;> first
        | trivial
        | (push_cast; ring1)
    · rw [ih (i + 1) (cum + 2 * π * (((v : ℚ) / (total : ℚ) : ℚ) : ℝ))]
      apply List.map_congr_left
      intro k _
      simp only [Function.comp_apply, List.getD_cons_succ, List.take_succ_cons,
        List.map_cons, List.sum_cons, Wedge.mk.injEq]
      and_intros <;> first
        | trivial
        | (push_cast [fracQ]; ring1)
        | (congr 2 <;> omega)

/-- Junk wedge used as `getD` default in statements. -/
noncomputable def wdflt : Wedge := ⟨"", 0, 0, ' ', 0, 0⟩

/-- Display angle `ang` lies in wedge `k`'s raw half-open interval. -/
noncomputable def wedgeContains (ws : List Wedge) (k : ℕ) (ang : ℝ) : Prop :=
  k < ws.length ∧ (ws.getD k wdflt).a0 ≤ ang ∧ ang < (ws.getD k wdflt).a1

lemma buildWedges_eq (g : List Char) (total : ℤ) (pairs : List (String × ℤ)) :
    buildWedges g total pairs = (List.range pairs.length).map (wedgeAt g total pairs) := by
  rw [buildWedges, buildWedgesAux_eq]
  apply List.map_congr_left
  intro k _
  simp [wedgeAt]

lemma buildWedges_length (g : List Char) (total : ℤ) (pairs : List (String × ℤ)) :
    (buildWedges g total pairs).length = pairs.length := by
  rw [buildWedges_eq]
  simp

lemma buildWedges_getD (g : List Char) (total : ℤ) (pairs : List (String × ℤ))
    {k : ℕ} (hk : k < pairs.length) :
    (buildWedges g total pairs).getD k wdflt = wedgeAt g total pairs k := by
  rw [buildWedges_eq]
  rw [List.getD_eq_getElem _ _ (by simpa using hk)]
  simp

lemma zip_getD {α β : Type} [Inhabited α] [Inhabited β]
    (l1 : List α) (l2 : List β) {k : ℕ} (h1 : k < l1.length) (h2 : k < l2.length) :
    (l1.zip l2).getD k (default, default) = (l1.getD k default, l2.getD k default) := by
  rw [List.getD_eq_getElem _ _ (by simp; omega),
    List.getD_eq_getElem _ _ h1, List.getD_eq_getElem _ _ h2]
  simp

lemma sum_map_div_cast (l : List ℤ) (t : ℚ) :
    (l.map (fun v : ℤ => (v : ℚ) / t)).sum = ((l.sum : ℤ) : ℚ) / t := by
  induction l with
  | nil => simp
  | cons v rest ih =>
    simp only [List.map_cons, List.sum_cons, List.sum_cons, ih]
    push_cast
    rw [add_div]

lemma map_fracQ_zip (labels : List String) (counts : List ℤ) (total : ℤ)
    (hlen : labels.length = counts.length) :
    ((labels.zip counts).map (fracQ total)).sum = ((counts.sum : ℤ) : ℚ) / (total : ℚ) := by
  have h1 : (labels.zip counts).map (fracQ total) =
      counts.map (fun v : ℤ => (v : ℚ) / (total : ℚ)) := by
    have h2 : (labels.zip counts).map (fracQ total) =
        ((labels.zip counts).map Prod.snd).map (fun v : ℤ => (v : ℚ) / (total : ℚ)) := by
      rw [List.map_map]
      rfl
    rw [h2, List.map_snd_zip labels counts (le_of_eq hlen.symm)]
  rw [h1, sum_map_div_cast]

/-- Discrete crossing: a sequence that starts at or below `ang` and ends
above it crosses it at some step. -/
lemma crossing_step (f : ℕ → ℝ) (ang : ℝ) :
    ∀ n : ℕ, f 0 ≤ ang → ang < f n → ∃ k, k < n ∧ f k ≤ ang ∧ ang < f (k + 1) := by
  intro n
  induction n with
  | zero => intro h0 hn; exact absurd (lt_of_le_of_lt h0 hn) (lt_irrefl _)
  | succ n ih =>
    intro h0 hn
    by_cases h : f n ≤ ang
    · exact ⟨n, Nat.lt_succ_self n, h, hn⟩
    · obtain ⟨k, hk, hk1, hk2⟩ := ih h0 (not_le.mp h)
      exact ⟨k, Nat.lt_succ_of_lt hk, hk1, hk2⟩

lemma sum_take_mono {l : List ℚ} (hnn : ∀ q ∈ l, 0 ≤ q) {a b : ℕ} (hab : a ≤ b) :
    (l.take a).sum ≤ (l.take b).sum := by
  have h1 : l.take b = l.take a ++ (l.drop a).take (b - a) := by
    rw [← List.take_add]
    congr 1
    omega
  rw [h1, List.sum_append]
  have h2 : 0 ≤ ((l.drop a).take (b - a)).sum := by
    apply List.sum_nonneg
    intro q hq
    exact hnn q (List.mem_of_mem_drop (List.mem_of_mem_take hq))
  linarith

lemma pairs_getD (labels : List String) (counts : List ℤ) {k : ℕ}
    (h1 : k < labels.length) (h2 : k < counts.length) :
    (labels.zip counts).getD k ("", 0) = (labels.getD k "", counts.getD k 0) := by
  rw [List.getD_eq_getElem _ _ (by rw [List.length_zip]; omega),
    List.getD_eq_getElem _ _ h1, List.getD_eq_getElem _ _ h2]
  simp

/-- C4 (amended): for every validated input the wedge list is produced in
input order with `frac = value/total` and glyph `palette[i % size]` (the
10-symbol default palette when none is supplied); the first wedge starts at
`0`, consecutive wedges chain (`angleStart i+1 = angleEnd i`), the last
wedge ends at `2π`; and — provided all counts are nonnegative — the raw
angular intervals partition `[0, 2π)` with no gaps or overlaps. -/
theorem pie_wedge_invariants (labels : List String) (counts : List ℤ) (cfg : PieCfg)
    (hne : labels ≠ []) (hlen : labels.length = counts.length)
    (hpos : 0 < counts.sum) :
    (pieWedges labels counts cfg).length = labels.length ∧
    (∀ k, k < labels.length →
      ((pieWedges labels counts cfg).getD k wdflt).label = labels.getD k "" ∧
      ((pieWedges labels counts cfg).getD k wdflt).val = counts.getD k 0 ∧
      ((pieWedges labels counts cfg).getD k wdflt).frac =
        ((counts.getD k 0 : ℤ) : ℚ) / ((counts.sum : ℤ) : ℚ) ∧
      ((pieWedges labels counts cfg).getD k wdflt).ch =
        (glyphsOf cfg).getD (k % (glyphsOf cfg).length) ' ') ∧
    ((pieWedges labels counts cfg).getD 0 wdflt).a0 = 0 ∧
    (∀ k, k + 1 < labels.length →
      ((pieWedges labels counts cfg).getD (k + 1) wdflt).a0 =
        ((pieWedges labels counts cfg).getD k wdflt).a1) ∧
    ((pieWedges labels counts cfg).getD (labels.length - 1) wdflt).a1 = 2 * π ∧
    (cfg.chars = none → glyphsOf cfg = defaultChars ∧ defaultChars.length = 10) ∧
    ((∀ v ∈ counts, 0 ≤ v) →
      ∀ ang ∈ Set.Ico 0 (2 * π),
        ∃! k, wedgeContains (pieWedges labels counts cfg) k ang) := by
  have hlab0 : 0 < labels.length := List.length_pos.mpr hne
  have hzlen : (labels.zip counts).length = labels.length := by
    rw [List.length_zip]
    omega
  have hwlen : (pieWedges labels counts cfg).length = labels.length := by
    unfold pieWedges
    rw [buildWedges_length]
    exact hzlen
  have htot : ((counts.sum : ℤ) : ℚ) ≠ 0 := by
    exact_mod_cast ne_of_gt hpos
  have hget : ∀ k, k < labels.length → (pieWedges labels counts cfg).getD k wdflt =
      wedgeAt (glyphsOf cfg) counts.sum (labels.zip counts) k := by
    intro k hk
    unfold pieWedges
    exact buildWedges_getD _ _ _ (by omega)
  have hsumall : (((labels.zip counts).take labels.length).map (fracQ counts.sum)).sum
      = 1 := by
    rw [show (labels.zip counts).take labels.length = labels.zip counts from by
      rw [← hzlen]; exact List.take_length _]
    rw [map_fracQ_zip labels counts _ hlen]
    exact div_self htot
  set f : ℕ → ℝ :=
    fun k => 2 * π * (((((labels.zip counts).take k).map (fracQ counts.sum)).sum : ℚ) : ℝ)
    with hf
  have ha0 : ∀ m, (wedgeAt (glyphsOf cfg) counts.sum (labels.zip counts) m).a0 = f m :=
    fun m => rfl
  have ha1 : ∀ m,
      (wedgeAt (glyphsOf cfg) counts.sum (labels.zip counts) m).a1 = f (m + 1) :=
    fun m => rfl
  have hf0 : f 0 = 0 := by simp [hf]
  have hfn : f labels.length = 2 * π := by
    rw [hf]
    simp only
    rw [hsumall]
    norm_num
  refine ⟨hwlen, ?_, ?_, ?_, ?_, ?_, ?_⟩
  · intro k hk
    rw [hget k hk, wedgeAt, pairs_getD labels counts hk (by omega)]
    exact ⟨rfl, rfl, rfl, rfl⟩
  · rw [hget 0 hlab0, ha0 0, hf0]
  · intro k hk
    rw [hget (k + 1) hk, hget k (by omega), ha0 (k + 1), ha1 k]
  · rw [hget (labels.length - 1) (by omega), ha1 (labels.length - 1),
      show labels.length - 1 + 1 = labels.length from by omega, hfn]
  · intro h
    rw [glyphsOf, h]
    exact ⟨rfl, rfl⟩
  · intro hnn ang hang
    have hnnq : ∀ q ∈ (labels.zip counts).map (fracQ counts.sum), 0 ≤ q := by
      intro q hq
      obtain ⟨p, hp, hqe⟩ := List.mem_map.mp hq
      have hsnd : p.2 ∈ counts := (List.of_mem_zip hp).2
      rw [← hqe]
      exact div_nonneg (by exact_mod_cast hnn p.2 hsnd) (by exact_mod_cast hpos.le)
    have hmono : ∀ a b : ℕ, a ≤ b → f a ≤ f b := by
      intro a b hab
      rw [hf]
      simp only
      have h1 : (((labels.zip counts).take a).map (fracQ counts.sum)).sum ≤
          (((labels.zip counts).take b).map (fracQ counts.sum)).sum := by
        rw [List.map_take, List.map_take]
        exact sum_take_mono hnnq hab
      have h2 : ((((labels.zip counts).take a).map (fracQ counts.sum)).sum : ℝ) ≤
          ((((labels.zip counts).take b).map (fracQ counts.sum)).sum : ℝ) := by
        exact_mod_cast h1
      nlinarith [Real.pi_pos]
    obtain ⟨k, hk, h1, h2⟩ :=
      crossing_step f ang labels.length
        (by rw [hf0]; exact hang.1) (by rw [hfn]; exact hang.2)
    have hcont : wedgeContains (pieWedges labels counts cfg) k ang := by
      refine ⟨by omega, ?_, ?_⟩
      · rw [hget k (by omega), ha0 k]
        exact h1
      · rw [hget k (by omega), ha1 k]
        exact h2
    refine ⟨k, hcont, ?_⟩
    intro k2 hk2
    obtain ⟨hk2len, hk2a, hk2b⟩ := hk2
    have hk2lab : k2 < labels.length := by omega
    rw [hget k2 hk2lab, ha0 k2] at hk2a
    rw [hget k2 hk2lab, ha1 k2] at hk2b
    by_contra hne2
    rcases Nat.lt_or_ge k2 k with hlt | hge
    · have hm := hmono (k2 + 1) k (by omega)
      linarith
    · have hgt : k < k2 := by omega
      have hm := hmono (k + 1) k2 (by omega)
      linarith

/-- C4 counterexample: the input `labels=["A","B","C"]`, `counts=[2,-1,1]`
passes both validations (equal non-zero lengths, total `2 > 0`), yet the raw
angular intervals do not partition `[0, 2π)`: the angle `3π/2` lies in the
interval of wedge 0 and in the interval of wedge 2, so the claimed
"no overlaps" fails. -/
theorem pie_wedge_partition_cex :
    ¬ (∀ ang ∈ Set.Ico 0 (2 * π),
        ∃! k, wedgeContains (pieWedges ["A", "B", "C"] [2, -1, 1] {}) k ang) := by
  intro h
  have hpi := Real.pi_pos
  have hmem : (3 * π / 2) ∈ Set.Ico 0 (2 * π) := ⟨by positivity, by linarith⟩
  obtain ⟨k, _, huniq⟩ := h (3 * π / 2) hmem
  have hlen3 : (pieWedges ["A", "B", "C"] [2, -1, 1] {}).length = 3 := by
    rw [pieWedges, buildWedges_length]
    rfl
  have hg0 : (pieWedges ["A", "B", "C"] [2, -1, 1] {}).getD 0 wdflt =
      wedgeAt (glyphsOf {}) ([2, -1, 1] : List ℤ).sum ((["A", "B", "C"]).zip [2, -1, 1]) 0 := by
    rw [pieWedges]
    exact buildWedges_getD _ _ _ (by norm_num)
  have hg2 : (pieWedges ["A", "B", "C"] [2, -1, 1] {}).getD 2 wdflt =
      wedgeAt (glyphsOf {}) ([2, -1, 1] : List ℤ).sum ((["A", "B", "C"]).zip [2, -1, 1]) 2 := by
    rw [pieWedges]
    exact buildWedges_getD _ _ _ (by norm_num)
  have h0 : wedgeContains (pieWedges ["A", "B", "C"] [2, -1, 1] {}) 0 (3 * π / 2) := by
    refine ⟨by omega, ?_, ?_⟩
    · rw [hg0]
      show (2 : ℝ) * π * _ ≤ _
      norm_num [fracQ]
      positivity
    · rw [hg0]
      show (3 : ℝ) * π / 2 < 2 * π * _
      norm_num [fracQ]
      linarith
  have h2 : wedgeContains (pieWedges ["A", "B", "C"] [2, -1, 1] {}) 2 (3 * π / 2) := by
    refine ⟨by omega, ?_, ?_⟩
    · rw [hg2]
      show (2 : ℝ) * π * _ ≤ _
      norm_num [fracQ]
      linarith
    · rw [hg2]
      show (3 : ℝ) * π / 2 < 2 * π * _
      norm_num [fracQ]
      linarith
  have e0 := huniq 0 h0
  have e2 := huniq 2 h2
  omega

/-- If some wedge interval contains the angle, the lookup returns one of the
wedges' glyphs (never the safety-net blank). -/
lemma wedge_char_mem : ∀ (ws : List Wedge) (ang : ℝ),
    (∃ k, wedgeContains ws k ang) → wedge_char ws ang ∈ ws.map (fun w => w.ch) := by
  intro ws
  induction ws with
  | nil =>
    intro ang hex
    simp only [wedgeContains] at hex
    obtain ⟨k, hk, _⟩ := hex
    simp at hk
  | cons w tail ih =>
    intro ang hex
    simp only [wedgeContains] at hex
    cases tail with
    | nil =>
      obtain ⟨k, hk, h1, h2⟩ := hex
      have hk0 : k = 0 := by simpa using hk
      subst hk0
      simp only [List.getD_cons_zero] at h1 h2
      rw [wedge_char, if_pos (Or.inl ⟨h1, h2⟩)]
      simp
    | cons w2 rest =>
      by_cases hcond : w.a0 ≤ ang ∧ ang < w.a1
      · rw [wedge_char, if_pos hcond]
        simp
      · rw [wedge_char, if_neg hcond]
        obtain ⟨k, hk, h1, h2⟩ := hex
        have hk0 : k ≠ 0 := by
          intro hz
          subst hz
          simp only [List.getD_cons_zero] at h1 h2
          exact hcond ⟨h1, h2⟩
        obtain ⟨k2, rfl⟩ := Nat.exists_eq_succ_of_ne_zero hk0
        have hex2 : ∃ m, wedgeContains (w2 :: rest) m ang := by
          refine ⟨k2, ?_, ?_, ?_⟩
          · simpa using hk
          · simpa using h1
          · simpa using h2
        have hmem := ih ang hex2
        simp only [List.map_cons, List.mem_cons] at hmem ⊢
        exact Or.inr hmem

/-- Every display angle in `[0, 2π)` lies in some wedge's raw interval
(discrete crossing argument; no sign condition on the counts is needed since
the cumulative sums start at `0` and end at `2π`). -/
lemma wedge_cover (labels : List String) (counts : List ℤ) (cfg : PieCfg)
    (hne : labels ≠ []) (hlen : labels.length = counts.length) (hpos : 0 < counts.sum)
    {ang : ℝ} (hang : ang ∈ Set.Ico 0 (2 * π)) :
    ∃ k, wedgeContains (pieWedges labels counts cfg) k ang := by
  have hlab0 : 0 < labels.length := List.length_pos.mpr hne
  have hzlen : (labels.zip counts).length = labels.length := by
    rw [List.length_zip]; omega
  have hwlen : (pieWedges labels counts cfg).length = labels.length := by
    unfold pieWedges
    rw [buildWedges_length]
    exact hzlen
  have htot : ((counts.sum : ℤ) : ℚ) ≠ 0 := by exact_mod_cast ne_of_gt hpos
  have hget : ∀ k, k < labels.length → (pieWedges labels counts cfg).getD k wdflt =
      wedgeAt (glyphsOf cfg) counts.sum (labels.zip counts) k := by
    intro k hk
    unfold pieWedges
    exact buildWedges_getD _ _ _ (by omega)
  have hsumall : (((labels.zip counts).take labels.length).map (fracQ counts.sum)).sum
      = 1 := by
    rw [show (labels.zip counts).take labels.length = labels.zip counts from by
      rw [← hzlen]; exact List.take_length _]
    rw [map_fracQ_zip labels counts _ hlen]
    exact div_self htot
  set f : ℕ → ℝ :=
    fun k => 2 * π * (((((labels.zip counts).take k).map (fracQ counts.sum)).sum : ℚ) : ℝ)
    with hf
  have hf0 : f 0 = 0 := by simp [hf]
  have hfn : f labels.length = 2 * π := by
    rw [hf]
    simp only
    rw [hsumall]
    norm_num
  obtain ⟨k, hk, h1, h2⟩ :=
    crossing_step f ang labels.length
      (by rw [hf0]; exact hang.1) (by rw [hfn]; exact hang.2)
  refine ⟨k, by omega, ?_, ?_⟩
  · rw [hget k (by omega)]
    exact h1
  · rw [hget k (by omega)]
    exact h2

/-- C10: for every wedge list built from validated input and every display
angle in `[0, 2π)` (the range `orient` produces), the wedge lookup matches
some wedge, so the blank safety-net fallback in `wedge_char` is unreachable
and every inside sample votes for some wedge's glyph. -/
theorem wedge_lookup_total (labels : List String) (counts : List ℤ) (cfg : PieCfg)
    (hne : labels ≠ []) (hlen : labels.length = counts.length) (hpos : 0 < counts.sum)
    {ang : ℝ} (hang : ang ∈ Set.Ico 0 (2 * π)) :
    (∃ k, wedgeContains (pieWedges labels counts cfg) k ang) ∧
    wedge_char (pieWedges labels counts cfg) ang ∈
      (pieWedges labels counts cfg).map (fun w => w.ch) := by
  have hex := wedge_cover labels counts cfg hne hlen hpos hang
  exact ⟨hex, wedge_char_mem _ _ hex⟩

/-- Witness for C4 at `labels=["A","B"]`, `counts=[1,3]`, default options. -/
theorem pie_wedge_invariants_witness :
    (pieWedges ["A", "B"] [1, 3] {}).length = 2 := by
  have h := pie_wedge_invariants ["A", "B"] [1, 3] {} (by decide) (by decide) (by decide)
  rw [h.1]
  rfl

/-- Witness for C10 at `labels=["A"]`, `counts=[5]`, angle `0`. -/
theorem wedge_lookup_total_witness :
    ∃ k, wedgeContains (pieWedges ["A"] [5] {}) k 0 :=
  (wedge_lookup_total ["A"] [5] {} (by decide) (by decide) (by decide)
    ⟨le_refl 0, Real.two_pi_pos⟩).1

/-! ### The vote dictionary and cell resolution (C2) -/

/-- Association-list lookup mirroring `votes.get(ch, 0)` access. -/
def lookupV : List (Char × ℕ) → Char → Option ℕ
  | [], _ => none
  | (a, n) :: t, c => if a = c then some n else lookupV t c

lemma addVote_keys (vs : List (Char × ℕ)) (c : Char) :
    (addVote vs c).map Prod.fst =
      if c ∈ vs.map Prod.fst then vs.map Prod.fst else vs.map Prod.fst ++ [c] := by
  induction vs with
  | nil => simp [addVote]
  | cons p t ih =>
    obtain ⟨a, n⟩ := p
    by_cases hac : a = c
    · subst hac
      simp [addVote]
    · simp only [addVote, if_neg hac, List.map_cons, ih, List.mem_cons]
      by_cases hc : c ∈ t.map Prod.fst
      · rw [if_pos hc, if_pos (Or.inr hc)]
      · rw [if_neg hc, if_neg (by
          intro h
          rcases h with h | h
          · exact hac h.symm
          · exact hc h)]
        rw [List.cons_append]

lemma addVote_lookup_self (vs : List (Char × ℕ)) (c : Char) :
    lookupV (addVote vs c) c = some ((lookupV vs c).getD 0 + 1) := by
  induction vs with
  | nil => simp [addVote, lookupV]
  | cons p t ih =>
    obtain ⟨a, n⟩ := p
    by_cases hac : a = c
    · subst hac
      simp [addVote, lookupV]
    · simp only [addVote, if_neg hac, lookupV, ih]

lemma addVote_lookup_other (vs : List (Char × ℕ)) {c c2 : Char} (h : c2 ≠ c) :
    lookupV (addVote vs c) c2 = lookupV vs c2 := by
  induction vs with
  | nil =>
    simp only [addVote, lookupV]
    rw [if_neg (fun he => h he.symm)]
  | cons p t ih =>
    obtain ⟨a, n⟩ := p
    by_cases hac : a = c
    · subst hac
      simp only [addVote, if_pos rfl, lookupV]
      rw [if_neg (fun he => h he.symm), if_neg (fun he => h he.symm)]
    · simp only [addVote, if_neg hac, lookupV, ih]

lemma lookupV_eq_none_iff (vs : List (Char × ℕ)) (c : Char) :
    lookupV vs c = none ↔ c ∉ vs.map Prod.fst := by
  induction vs with
  | nil => simp [lookupV]
  | cons p t ih =>
    obtain ⟨a, n⟩ := p
    by_cases hac : a = c
    · subst hac
      simp [lookupV]
    · simp only [lookupV, if_neg hac, ih, List.map_cons, List.mem_cons]
      constructor
      · intro hn h
        rcases h with h | h
        · exact hac h.symm
        · exact hn h
      · intro h hm
        exact h (Or.inr hm)

lemma mem_of_lookupV {vs : List (Char × ℕ)} {c : Char} {n : ℕ}
    (h : lookupV vs c = some n) : (c, n) ∈ vs := by
  induction vs with
  | nil => simp [lookupV] at h
  | cons p t ih =>
    obtain ⟨a, m⟩ := p
    by_cases hac : a = c
    · subst hac
      have h2 : some m = some n := by simpa [lookupV] using h
      injection h2 with h3
      subst h3
      exact List.mem_cons_self _ _
    · simp only [lookupV, if_neg hac] at h
      exact List.mem_cons_of_mem _ (ih h)

lemma lookupV_of_mem_nodup {vs : List (Char × ℕ)} (hnd : (vs.map Prod.fst).Nodup)
    {c : Char} {n : ℕ} (hm : (c, n) ∈ vs) : lookupV vs c = some n := by
  induction vs with
  | nil => simp at hm
  | cons p t ih =>
    obtain ⟨a, m⟩ := p
    simp only [List.map_cons, List.nodup_cons] at hnd
    rcases List.mem_cons.mp hm with he | hmt
    · injection he with h1 h2
      subst h1
      subst h2
      simp [lookupV]
    · have hac : a ≠ c := by
        intro he
        subst he
        exact hnd.1 (List.mem_map.mpr ⟨(a, n), hmt, rfl⟩)
      simp only [lookupV, if_neg hac]
      exact ih hnd.2 hmt

lemma buildVotes_invariant (seq : List Char) :
    ((buildVotes seq).map Prod.fst).Nodup ∧
    (∀ c, lookupV (buildVotes seq) c =
      if c ∈ seq then some (seq.count c) else none) ∧
    ((buildVotes seq).map Prod.fst).Pairwise
      (fun a b => seq.indexOf a < seq.indexOf b) := by
  induction seq using List.reverseRecOn with
  | nil => simp [buildVotes, lookupV]
  | append_singleton seq c ih =>
    obtain ⟨hnd, hlk, hpw⟩ := ih
    have hb : buildVotes (seq ++ [c]) = addVote (buildVotes seq) c := by
      rw [buildVotes, buildVotes, List.foldl_append]
      rfl
    have hkeys : ∀ a, a ∈ (buildVotes seq).map Prod.fst ↔ a ∈ seq := by
      intro a
      constructor
      · intro h
        by_contra hns
        have h2 := hlk a
        rw [if_neg hns] at h2
        exact ((lookupV_eq_none_iff _ _).mp h2) h
      · intro h
        have h2 := hlk a
        rw [if_pos h] at h2
        by_contra hnk
        rw [(lookupV_eq_none_iff _ _).mpr hnk] at h2
        exact Option.noConfusion h2
    by_cases hc : c ∈ seq
    · -- existing key: keys unchanged
      have hck : c ∈ (buildVotes seq).map Prod.fst := (hkeys c).mpr hc
      have hk2 : (buildVotes (seq ++ [c])).map Prod.fst = (buildVotes seq).map Prod.fst := by
        rw [hb, addVote_keys, if_pos hck]
      refine ⟨hk2 ▸ hnd, ?_, ?_⟩
      · intro a
        by_cases hac : a = c
        · subst hac
          rw [hb, addVote_lookup_self, hlk a, if_pos hc,
            if_pos (List.mem_append.mpr (Or.inl hc))]
          simp [List.count_append]
        · rw [hb, addVote_lookup_other _ hac, hlk a]
          by_cases ha : a ∈ seq
          · rw [if_pos ha, if_pos (List.mem_append.mpr (Or.inl ha))]
            have hne2 : (c == a) = false := by
              simp [beq_eq_false_iff_ne]
              exact fun he => hac he.symm
            simp [List.count_append, List.count_singleton, hne2]
          · rw [if_neg ha, if_neg (by
              intro hm
              rcases List.mem_append.mp hm with hm | hm
              · exact ha hm
              · exact hac (List.mem_singleton.mp hm))]
      · rw [hk2]
        apply hpw.imp_of_mem
        intro a b hma hmb hab
        have ha : a ∈ seq := (hkeys a).mp hma
        have hbq : b ∈ seq := (hkeys b).mp hmb
        rw [List.indexOf_append_of_mem ha, List.indexOf_append_of_mem hbq]
        exact hab
    · -- new key: appended at the end
      have hck : c ∉ (buildVotes seq).map Prod.fst := fun h => hc ((hkeys c).mp h)
      have hk2 : (buildVotes (seq ++ [c])).map Prod.fst =
          (buildVotes seq).map Prod.fst ++ [c] := by
        rw [hb, addVote_keys, if_neg hck]
      refine ⟨?_, ?_, ?_⟩
      · rw [hk2]
        rw [List.nodup_append]
        exact ⟨hnd, List.nodup_singleton c, by
          intro a ha hmem
          rw [List.mem_singleton] at hmem
          subst hmem
          exact hck ha⟩
      · intro a
        by_cases hac : a = c
        · subst hac
          rw [hb, addVote_lookup_self,
            (lookupV_eq_none_iff _ _).mpr hck,
            if_pos (List.mem_append.mpr (Or.inr (List.mem_singleton.mpr rfl)))]
          have hcnt : List.count a seq = 0 := List.count_eq_zero.mpr hc
          simp [List.count_append, hcnt]
        · rw [hb, addVote_lookup_other _ hac, hlk a]
          by_cases ha : a ∈ seq
          · rw [if_pos ha, if_pos (List.mem_append.mpr (Or.inl ha))]
            have hne2 : (c == a) = false := by
              simp [beq_eq_false_iff_ne]
              exact fun he => hac he.symm
            simp [List.count_append, List.count_singleton, hne2]
          · rw [if_neg ha, if_neg (by
              intro hm
              rcases List.mem_append.mp hm with hm | hm
              · exact ha hm
              · exact hac (List.mem_singleton.mp hm))]
      · rw [hk2, List.pairwise_append]
        refine ⟨?_, List.pairwise_singleton _ _, ?_⟩
        · apply hpw.imp_of_mem
          intro a b hma hmb hab
          have ha : a ∈ seq := (hkeys a).mp hma
          have hbq : b ∈ seq := (hkeys b).mp hmb
          rw [List.indexOf_append_of_mem ha, List.indexOf_append_of_mem hbq]
          exact hab
        · intro a hma b hmb
          rw [List.mem_singleton] at hmb
          subst hmb
          have ha : a ∈ seq := (hkeys a).mp hma
          rw [List.indexOf_append_of_mem ha, List.indexOf_append_of_not_mem hc]
          have h1 : seq.indexOf a < seq.length := List.indexOf_lt_length.mpr ha
          simp only [List.indexOf_cons_self, Nat.add_zero]
          omega

lemma maxPair_le_self : ∀ (t : List (Char × ℕ)) (p : Char × ℕ), p.2 ≤ (maxPair p t).2 := by
  intro t
  induction t with
  | nil => intro p; exact le_refl _
  | cons q t ih =>
    intro p
    rw [maxPair]
    by_cases hq : q.2 > p.2
    · rw [if_pos hq]
      exact le_trans (le_of_lt hq) (ih q)
    · rw [if_neg hq]
      exact ih p

lemma maxPair_split : ∀ (t : List (Char × ℕ)) (p : Char × ℕ),
    ∃ t1 t2, p :: t = t1 ++ maxPair p t :: t2 ∧
      (∀ q ∈ t1, q.2 < (maxPair p t).2) ∧ (∀ q ∈ t2, q.2 ≤ (maxPair p t).2) := by
  intro t
  induction t with
  | nil =>
    intro p
    exact ⟨[], [], rfl, by simp, by simp⟩
  | cons q t ih =>
    intro p
    rw [maxPair]
    by_cases hq : q.2 > p.2
    · rw [if_pos hq]
      obtain ⟨t1, t2, he, h1, h2⟩ := ih q
      refine ⟨p :: t1, t2, ?_, ?_, h2⟩
      · rw [List.cons_append, ← he]
      · intro x hx
        rcases List.mem_cons.mp hx with hx | hx
        · subst hx
          exact lt_of_lt_of_le hq (maxPair_le_self t q)
        · exact h1 x hx
    · rw [if_neg hq]
      obtain ⟨t1, t2, he, h1, h2⟩ := ih p
      cases t1 with
      | nil =>
        simp only [List.nil_append] at he
        have hmp : maxPair p t = p := (List.cons.injEq .. ▸ he).1.symm
        refine ⟨[], q :: t2, ?_, by simp, ?_⟩
        · simp only [List.nil_append]
          rw [List.cons.injEq]
          exact ⟨hmp.symm ▸ rfl, by
            have ht : t = t2 := (List.cons.injEq .. ▸ he).2
            rw [ht]⟩
        · intro x hx
          rcases List.mem_cons.mp hx with hx | hx
          · subst hx
            rw [hmp]
            exact not_lt.mp hq
          · exact h2 x hx
      | cons a t1r =>
        simp only [List.cons_append, List.cons.injEq] at he
        obtain ⟨hap, ht⟩ := he
        refine ⟨p :: q :: t1r, t2, ?_, ?_, h2⟩
        · rw [List.cons_append, List.cons_append, ← ht]
        · intro x hx
          rcases List.mem_cons.mp hx with hx | hx
          · subst hx
            have h3 := h1 a (List.mem_cons_self _ _)
            rw [← hap] at h3
            exact h3
          · rcases List.mem_cons.mp hx with hx | hx
            · subst hx
              have h3 := h1 a (List.mem_cons_self _ _)
              rw [← hap] at h3
              exact lt_of_le_of_lt (not_lt.mp hq) h3
            · exact h1 x (List.mem_cons_of_mem _ hx)

lemma firstMax_spec (seq : List Char) (hne : seq ≠ []) :
    firstMax (buildVotes seq) ∈ seq ∧
    (∀ c ∈ seq, seq.count c ≤ seq.count (firstMax (buildVotes seq))) ∧
    (∀ c ∈ seq, seq.count c = seq.count (firstMax (buildVotes seq)) →
      seq.indexOf (firstMax (buildVotes seq)) ≤ seq.indexOf c) := by
  obtain ⟨hnd, hlk, hpw⟩ := buildVotes_invariant seq
  have hkeys : ∀ a, a ∈ (buildVotes seq).map Prod.fst ↔ a ∈ seq := by
    intro a
    constructor
    · intro h
      by_contra hns
      have h2 := hlk a
      rw [if_neg hns] at h2
      exact ((lookupV_eq_none_iff _ _).mp h2) h
    · intro h
      have h2 := hlk a
      rw [if_pos h] at h2
      by_contra hnk
      rw [(lookupV_eq_none_iff _ _).mpr hnk] at h2
      exact Option.noConfusion h2
  cases hvs : buildVotes seq with
  | nil =>
    exfalso
    obtain ⟨a, ha⟩ := List.exists_mem_of_ne_nil seq hne
    have := (hkeys a).mpr ha
    rw [hvs] at this
    simp at this
  | cons p t =>
    rw [firstMax]
    obtain ⟨t1, t2, hsplit, hpre, hsuf⟩ := maxPair_split t p
    have hmem_vs : maxPair p t ∈ buildVotes seq := by
      rw [hvs, hsplit]
      exact List.mem_append.mpr (Or.inr (List.mem_cons_self _ _))
    have hlkm : lookupV (buildVotes seq) (maxPair p t).1 = some (maxPair p t).2 :=
      lookupV_of_mem_nodup hnd hmem_vs
    have hmseq : (maxPair p t).1 ∈ seq := by
      by_contra hns
      rw [hlk _, if_neg hns] at hlkm
      exact Option.noConfusion hlkm
    have hmcount : (maxPair p t).2 = seq.count (maxPair p t).1 := by
      rw [hlk _, if_pos hmseq] at hlkm
      exact (Option.some_inj.mp hlkm).symm
    have hentry : ∀ c ∈ seq, (c, seq.count c) ∈ buildVotes seq := by
      intro c hc
      apply mem_of_lookupV
      rw [hlk c, if_pos hc]
    refine ⟨hmseq, ?_, ?_⟩
    · intro c hc
      have hmem2 := hentry c hc
      rw [hvs, hsplit] at hmem2
      rcases List.mem_append.mp hmem2 with hm | hm
      · have := hpre _ hm
        simp only at this
        omega
      · rcases List.mem_cons.mp hm with hm | hm
        · have : seq.count c = (maxPair p t).2 := congrArg Prod.snd hm
          omega
        · have := hsuf _ hm
          simp only at this
          omega
    · intro c hc hcnt
      have hmem2 := hentry c hc
      rw [hvs, hsplit] at hmem2
      rcases List.mem_append.mp hmem2 with hm | hm
      · have := hpre _ hm
        simp only at this
        omega
      · rcases List.mem_cons.mp hm with hm | hm
        · have hc1 : c = (maxPair p t).1 := by
            have := congrArg Prod.fst hm
            simpa using this
          rw [hc1]
        · have hck : c ∈ t2.map Prod.fst := List.mem_map.mpr ⟨_, hm, rfl⟩
          have hkeyeq : (buildVotes seq).map Prod.fst =
              t1.map Prod.fst ++ (maxPair p t).1 :: t2.map Prod.fst := by
            rw [hvs, hsplit, List.map_append, List.map_cons]
          rw [hkeyeq] at hpw
          have hrel := (List.pairwise_append.mp hpw).2.1
          have := (List.pairwise_cons.mp hrel).1 c hck
          omega

lemma sample_fold (cfg : PieCfg) (ws : List Wedge) (i j : ℤ) :
    ∀ (pairs : List (ℚ × ℚ)) (v : List (Char × ℕ)) (b n : ℕ),
      pairs.foldl (sampleStep cfg ws i j) (v, b, n) =
        (List.foldl addVote v (pairs.filterMap fun d =>
            if discards cfg i j d then none
            else some (wedge_char ws (sampleAng cfg i j d))),
         b + (pairs.filter fun d =>
            decide (¬discards cfg i j d ∧ borderHit cfg i j d)).length,
         n + (pairs.filterMap fun d =>
            if discards cfg i j d then none
            else some (wedge_char ws (sampleAng cfg i j d))).length) := by
  intro pairs
  induction pairs with
  | nil => intro v b n; simp
  | cons d t ih =>
    intro v b n
    rw [List.foldl_cons]
    by_cases hd : discards cfg i j d
    · have hstep : sampleStep cfg ws i j (v, b, n) d = (v, b, n) := by
        simp only [sampleStep, if_pos hd]
      rw [hstep, ih v b n]
      simp [List.filterMap_cons, List.filter_cons, hd]
    · have hstep : sampleStep cfg ws i j (v, b, n) d =
          (addVote v (wedge_char ws (sampleAng cfg i j d)),
           b + (if borderHit cfg i j d then 1 else 0), n + 1) := by
        simp only [sampleStep, if_neg hd]
      rw [hstep, ih]
      have hfm : List.filterMap (fun d2 => if discards cfg i j d2 then none
          else some (wedge_char ws (sampleAng cfg i j d2))) (d :: t) =
          wedge_char ws (sampleAng cfg i j d) :: List.filterMap (fun d2 =>
            if discards cfg i j d2 then none
            else some (wedge_char ws (sampleAng cfg i j d2))) t := by
        rw [List.filterMap_cons, if_neg hd]
      rw [hfm, List.foldl_cons, List.length_cons]
      by_cases hb : borderHit cfg i j d
      · have hfl : List.filter
            (fun d2 => decide (¬discards cfg i j d2 ∧ borderHit cfg i j d2)) (d :: t) =
            d :: List.filter
              (fun d2 => decide (¬discards cfg i j d2 ∧ borderHit cfg i j d2)) t := by
          rw [List.filter_cons, if_pos (by simp [hd, hb])]
        rw [hfl, List.length_cons, if_pos hb]
        simp only [Prod.mk.injEq]
        exact ⟨trivial, by omega, by omega⟩
      · have hfl : List.filter
            (fun d2 => decide (¬discards cfg i j d2 ∧ borderHit cfg i j d2)) (d :: t) =
            List.filter
              (fun d2 => decide (¬discards cfg i j d2 ∧ borderHit cfg i j d2)) t := by
          rw [List.filter_cons, if_neg (by simp [hb])]
        rw [hfl, if_neg hb]
        simp only [Prod.mk.injEq]
        exact ⟨trivial, by omega, by omega⟩

lemma sampleCell_eq (cfg : PieCfg) (ws : List Wedge) (i j : ℤ) :
    sampleCell cfg ws i j =
      (buildVotes (keptChars cfg ws i j), borderCount cfg i j,
        (keptChars cfg ws i j).length) := by
  rw [sampleCell, sample_fold, buildVotes, keptChars, borderCount]
  simp

/-- C2: after supersampling a cell, the loop state is exactly (vote dict of
the kept glyph sequence, border votes, number of inside samples); a cell
with no inside sample is blank; with a border glyph configured and
`border_vote > inside // 3` the border glyph wins; otherwise the cell is
the glyph with the most votes among the kept samples, ties broken by first
occurrence in scan order (outer `dy`, inner `dx`, both ascending). -/
theorem cell_resolution (cfg : PieCfg) (ws : List Wedge) (i j : ℤ) :
    sampleCell cfg ws i j =
      (buildVotes (keptChars cfg ws i j), borderCount cfg i j,
        (keptChars cfg ws i j).length) ∧
    (keptChars cfg ws i j = [] → cellChar cfg ws i j = ' ') ∧
    (∀ b : Char, keptChars cfg ws i j ≠ [] → cfg.border = some b →
      borderCount cfg i j > (keptChars cfg ws i j).length / 3 →
      cellChar cfg ws i j = b) ∧
    (keptChars cfg ws i j ≠ [] →
      (cfg.border = none ∨ borderCount cfg i j ≤ (keptChars cfg ws i j).length / 3) →
      cellChar cfg ws i j ∈ keptChars cfg ws i j ∧
      (∀ c ∈ keptChars cfg ws i j,
        (keptChars cfg ws i j).count c ≤
          (keptChars cfg ws i j).count (cellChar cfg ws i j)) ∧
      (∀ c ∈ keptChars cfg ws i j,
        (keptChars cfg ws i j).count c =
            (keptChars cfg ws i j).count (cellChar cfg ws i j) →
        (keptChars cfg ws i j).indexOf (cellChar cfg ws i j) ≤
          (keptChars cfg ws i j).indexOf c)) := by
  have hsc := sampleCell_eq cfg ws i j
  refine ⟨hsc, ?_, ?_, ?_⟩
  · intro hempty
    rw [cellChar, hsc, resolveCell]
    simp [hempty]
  · intro b hne hbord hgt
    have hlen : (keptChars cfg ws i j).length ≠ 0 := by
      simpa [List.length_eq_zero] using hne
    rw [cellChar, hsc]
    simp only [resolveCell, hbord, hlen, if_false, ite_false]
    rw [if_pos hgt]
  · intro hne hnb
    have hlen : (keptChars cfg ws i j).length ≠ 0 := by
      simpa [List.length_eq_zero] using hne
    have hcell : cellChar cfg ws i j = firstMax (buildVotes (keptChars cfg ws i j)) := by
      rw [cellChar, hsc]
      rcases hnb with hnone | hle
      · simp [resolveCell, hnone, hlen]
      · cases hbord : cfg.border with
        | none => simp [resolveCell, hbord, hlen]
        | some b2 =>
          simp only [resolveCell, hbord]
          rw [if_neg hlen, if_neg (by omega)]
    rw [hcell]
    exact firstMax_spec _ hne

lemma rOf_nonneg (x y : ℚ) : 0 ≤ rOf x y := Real.sqrt_nonneg _

lemma rOf_le_iff {x y : ℚ} {t : ℝ} (ht : 0 ≤ t) :
    rOf x y ≤ t ↔ ((x : ℝ) ^ 2 + (y : ℝ) ^ 2) ≤ t ^ 2 := by
  rw [rOf]
  rw [Real.sqrt_le_iff]
  exact and_iff_right ht

lemma rOf_lt_iff {x y : ℚ} {t : ℝ} (ht : 0 ≤ t) :
    rOf x y < t ↔ ((x : ℝ) ^ 2 + (y : ℝ) ^ 2) < t ^ 2 := by
  rcases eq_or_lt_of_le ht with h0 | h0
  · subst h0
    constructor
    · intro h
      exact absurd h (not_lt.mpr (rOf_nonneg x y))
    · intro h
      exfalso
      have h1 : (0 : ℝ) ≤ (x : ℝ) ^ 2 + (y : ℝ) ^ 2 := by positivity
      nlinarith
  · rw [rOf, Real.sqrt_lt' h0]

lemma lt_rOf_iff {x y : ℚ} {t : ℝ} (ht : 0 ≤ t) :
    t < rOf x y ↔ t ^ 2 < ((x : ℝ) ^ 2 + (y : ℝ) ^ 2) := by
  rw [rOf, Real.lt_sqrt ht]

/-- Witness for C2: `samples = 1`, `radius = 1`, no border glyph, the empty
wedge list, cell `(0, 0)`; the single sample at the origin is kept, so the
majority branch fires. -/
theorem cell_resolution_witness :
    cellChar { radius := 1, samples := 1, border := none } [] 0 0 ∈
      keptChars { radius := 1, samples := 1, border := none } [] 0 0 := by
  have hoff : offsets { radius := 1, samples := 1, border := none } = [0] := by
    rw [offsets, show List.range 1 = [0] from rfl]
    norm_num [stepOf]
  have hsp : samplePairs { radius := 1, samples := 1, border := none } = [(0, 0)] := by
    rw [samplePairs, hoff]
    rfl
  have hxy : sampleXY { radius := 1, samples := 1, border := none } 0 0 (0, 0) = (0, 0) := by
    norm_num [sampleXY]
  have hr : rOf (0 : ℚ) (0 : ℚ) = 0 := by
    rw [rOf]
    push_cast
    norm_num
  have hnd : ¬ discards { radius := 1, samples := 1, border := none } 0 0 (0, 0) := by
    rw [discards, hxy]
    push_neg
    constructor
    · rw [hr]
      norm_num [epsQ]
    · rw [hr]
      norm_num [innerOf, epsQ]
  have hkept : keptChars { radius := 1, samples := 1, border := none } [] 0 0 = [' '] := by
    rw [keptChars, hsp, List.filterMap_cons, if_neg hnd]
    rw [wedge_char]
    rfl
  have h := (cell_resolution { radius := 1, samples := 1, border := none } [] 0 0).2.2.2
    (by rw [hkept]; exact List.cons_ne_nil _ _) (Or.inl rfl)
  exact h.1

/-! ### Label placement stays inside the rendered span (C6, C7) -/

lemma writeFrom_length : ∀ (cs row : List Char) (start : ℤ),
    (writeFrom row start cs).length = row.length := by
  intro cs
  induction cs with
  | nil => intro row start; rfl
  | cons c cs ih =>
    intro row start
    rw [writeFrom, ih]
    by_cases h : 0 ≤ start ∧ start < (row.length : ℤ)
    · rw [if_pos h, List.length_set]
    · rw [if_neg h]

lemma writeFrom_getD : ∀ (cs row : List Char) (start : ℤ) (k : ℕ),
    ((k : ℤ) < start ∨ start + cs.length ≤ (k : ℤ)) →
    (writeFrom row start cs).getD k ' ' = row.getD k ' ' := by
  intro cs
  induction cs with
  | nil => intro row start k _; rfl
  | cons c cs ih =>
    intro row start k h
    simp only [List.length_cons] at h
    rw [writeFrom]
    have hk1 : (k : ℤ) < start + 1 ∨ (start + 1) + cs.length ≤ (k : ℤ) := by
      rcases h with h | h
      · left; omega
      · right; push_cast at h ⊢; omega
    rw [ih _ _ _ hk1]
    by_cases hg : 0 ≤ start ∧ start < (row.length : ℤ)
    · rw [if_pos hg]
      have hne : start.toNat ≠ k := by
        rcases h with h | h
        · omega
        · push_cast at h; omega
      simp [List.getD_eq_getElem?_getD, List.getElem?_set_ne hne]
    · rw [if_neg hg]

lemma firstNB_eq_some_iff : ∀ (row : List Char) (f : ℕ),
    firstNB row = some f ↔
      f < row.length ∧ row.getD f ' ' ≠ ' ' ∧ ∀ m, m < f → row.getD m ' ' = ' ' := by
  intro row
  induction row with
  | nil => intro f; simp [firstNB]
  | cons c t ih =>
    intro f
    rw [firstNB]
    by_cases hc : c ≠ ' '
    · rw [if_pos hc]
      constructor
      · intro h
        injection h with h
        subst h
        exact ⟨Nat.succ_pos _, by simpa using hc, by omega⟩
      · rintro ⟨h1, h2, h3⟩
        cases f with
        | zero => rfl
        | succ f2 =>
          exfalso
          have h4 := h3 0 (Nat.succ_pos _)
          rw [List.getD_cons_zero] at h4
          exact hc h4
    · rw [if_neg hc]
      push_neg at hc
      cases f with
      | zero =>
        constructor
        · intro h
          exfalso
          cases hx : firstNB t with
          | none => rw [hx] at h; exact Option.noConfusion h
          | some m => rw [hx] at h; simp at h
        · rintro ⟨h1, h2, h3⟩
          exfalso
          rw [List.getD_cons_zero] at h2
          exact h2 hc
      | succ f2 =>
        constructor
        · intro h
          have h4 : firstNB t = some f2 := by
            cases hx : firstNB t with
            | none => rw [hx] at h; exact Option.noConfusion h
            | some m =>
              rw [hx] at h
              simp only [Option.map_some'] at h
              injection h with h
              rw [show m = f2 from by omega]
          have h5 := (ih f2).mp h4
          refine ⟨by simpa [Nat.succ_lt_succ_iff] using h5.1, by simpa using h5.2.1, ?_⟩
          intro m hm
          cases m with
          | zero => simpa using hc
          | succ m2 =>
            rw [List.getD_cons_succ]
            exact h5.2.2 m2 (by omega)
        · rintro ⟨h1, h2, h3⟩
          have h4 : firstNB t = some f2 := by
            apply (ih f2).mpr
            refine ⟨by simpa [Nat.succ_lt_succ_iff] using h1, by simpa using h2, ?_⟩
            intro m hm
            have h5 := h3 (m + 1) (by omega)
            rw [List.getD_cons_succ] at h5
            exact h5
          rw [h4]
          rfl

lemma firstNB_eq_none_iff : ∀ (row : List Char),
    firstNB row = none ↔ ∀ c ∈ row, c = ' ' := by
  intro row
  induction row with
  | nil => simp [firstNB]
  | cons c t ih =>
    rw [firstNB]
    by_cases hc : c ≠ ' '
    · rw [if_pos hc]
      simp only [List.mem_cons]
      constructor
      · intro h; exact Option.noConfusion h
      · intro h; exact absurd (h c (Or.inl rfl)) hc
    · rw [if_neg hc]
      push_neg at hc
      constructor
      · intro h x hx
        rcases List.mem_cons.mp hx with hx | hx
        · rw [hx, hc]
        · have h2 : firstNB t = none := by
            cases hx2 : firstNB t with
            | none => rfl
            | some m => rw [hx2] at h; simp at h
          exact (ih.mp h2) x hx
      · intro h
        have h2 : firstNB t = none :=
          ih.mpr (fun x hx => h x (List.mem_cons_of_mem _ hx))
        rw [h2]
        rfl

lemma firstNB_congr {row row2 : List Char} {f : ℕ} (hlen : row2.length = row.length)
    (hag : ∀ m, m ≤ f → row2.getD m ' ' = row.getD m ' ')
    (h : firstNB row = some f) : firstNB row2 = some f := by
  rw [firstNB_eq_some_iff] at h ⊢
  obtain ⟨h1, h2, h3⟩ := h
  refine ⟨by omega, by rw [hag f (le_refl f)]; exact h2, ?_⟩
  intro m hm
  rw [hag m (le_of_lt hm)]
  exact h3 m hm

lemma getD_reverse_eq {l : List Char} {m : ℕ} (h : m < l.length) :
    l.reverse.getD m ' ' = l.getD (l.length - 1 - m) ' ' := by
  rw [List.getD_eq_getElem _ _ (by simpa using h),
    List.getD_eq_getElem _ _ (by omega)]
  exact List.getElem_reverse _

/-- Proof-side bundle: `cur` differs from `orig` only strictly inside each
row's original rendered span; lengths and span boundaries are preserved. -/
def RowsAgree (orig cur : List (List Char)) : Prop :=
  cur.length = orig.length ∧
  ∀ r : ℕ,
    (cur.getD r []).length = (orig.getD r []).length ∧
    firstNB (cur.getD r []) = firstNB (orig.getD r []) ∧
    firstNB (cur.getD r []).reverse = firstNB (orig.getD r []).reverse ∧
    ∀ k : ℕ,
      (∀ f, firstNB (orig.getD r []) = some f → k < f ∨ lastNB (orig.getD r []) < k) →
      (cur.getD r []).getD k ' ' = (orig.getD r []).getD k ' '

lemma rowsAgree_refl (ls : List (List Char)) : RowsAgree ls ls :=
  ⟨rfl, fun _ => ⟨rfl, rfl, rfl, fun _ _ => rfl⟩⟩

lemma lastNB_congr {row row2 : List Char} (hlen : row2.length = row.length)
    (hrev : firstNB row2.reverse = firstNB row.reverse) :
    lastNB row2 = lastNB row := by
  rw [lastNB, lastNB, hlen, hrev]

lemma rowsAgree_trans {a b c : List (List Char)} (h1 : RowsAgree a b)
    (h2 : RowsAgree b c) : RowsAgree a c := by
  obtain ⟨hl1, hr1⟩ := h1
  obtain ⟨hl2, hr2⟩ := h2
  refine ⟨hl2.trans hl1, fun r => ?_⟩
  obtain ⟨ha1, ha2, ha3, ha4⟩ := hr1 r
  obtain ⟨hb1, hb2, hb3, hb4⟩ := hr2 r
  refine ⟨hb1.trans ha1, hb2.trans ha2, hb3.trans ha3, fun k hk => ?_⟩
  have hkb : ∀ f, firstNB (b.getD r []) = some f → k < f ∨ lastNB (b.getD r []) < k := by
    intro f hf
    rw [ha2] at hf
    rw [lastNB_congr ha1 ha3]
    exact hk f hf
  rw [hb4 k hkb, ha4 k hk]

/-- The zeta-reduced `cap` of `place`'s writing branch. -/
def placeCap (row : List Char) (first : ℕ) : ℤ :=
  ((lastNB row : ℤ) - 1) - ((first : ℤ) + 1) + 1

/-- The zeta-reduced truncated label text of `place`'s writing branch. -/
def placeText2 (row : List Char) (first : ℕ) (text : String) : List Char :=
  if (((" " ++ text ++ " ").data.length : ℤ)) > placeCap row first
  then (" " ++ text ++ " ").data.take (max 0 (placeCap row first)).toNat
  else (" " ++ text ++ " ").data

/-- The zeta-reduced start column of `place`'s writing branch. -/
def placeStart (row : List Char) (first : ℕ) (text : String) : Align → ℤ
  | .left => (first : ℤ) + 1
  | .right => ((lastNB row : ℤ) - 1) - ((placeText2 row first text).length : ℤ) + 1
  | .center => ((first : ℤ) + 1) +
      Int.fdiv (placeCap row first - ((placeText2 row first text).length : ℤ)) 2

lemma place_eq_write (ls : List (List Char)) (ri : ℕ) (text : String) (al : Align)
    {row : List Char} {first : ℕ} (hrow : ls.get? ri = some row)
    (hfnb : firstNB row = some first) (hlf : ¬lastNB row ≤ first) :
    place ls ri text al =
      ls.set ri (writeFrom row (placeStart row first text al)
        (placeText2 row first text)) := by
  cases al <;>
    (simp only [place, hrow, hfnb]
     rw [if_neg hlf]
     rfl)

lemma placeText2_le (row : List Char) (first : ℕ) (text : String)
    (hfl : first < lastNB row) :
    ((placeText2 row first text).length : ℤ) ≤ placeCap row first := by
  have hcap0 : 0 ≤ placeCap row first := by
    rw [placeCap]
    omega
  rw [placeText2]
  split_ifs with h
  · rw [List.length_take]
    push_cast
    omega
  · omega

lemma placeStart_bounds (row : List Char) (first : ℕ) (text : String) (al : Align)
    (hfl : first < lastNB row) :
    (first : ℤ) + 1 ≤ placeStart row first text al ∧
    placeStart row first text al + ((placeText2 row first text).length : ℤ) ≤
      (lastNB row : ℤ) := by
  have hle := placeText2_le row first text hfl
  rw [placeCap] at hle
  cases al
  · rw [placeStart]
    omega
  · rw [placeStart]
    omega
  · rw [placeStart]
    have he := Int.fdiv_eq_ediv
      (placeCap row first - ((placeText2 row first text).length : ℤ))
      (by norm_num : (0 : ℤ) ≤ 2)
    rw [he, placeCap]
    omega

lemma place_agrees (ls : List (List Char)) (ri : ℕ) (text : String) (al : Align) :
    RowsAgree ls (place ls ri text al) := by
  cases hrow : ls.get? ri with
  | none =>
    have he : place ls ri text al = ls := by simp only [place, hrow]
    rw [he]
    exact rowsAgree_refl ls
  | some row =>
    cases hfnb : firstNB row with
    | none =>
      have he : place ls ri text al = ls := by simp only [place, hrow, hfnb]
      rw [he]
      exact rowsAgree_refl ls
    | some first =>
      by_cases hlf : lastNB row ≤ first
      · have he : place ls ri text al = ls := by
          simp only [place, hrow, hfnb]
          rw [if_pos hlf]
        rw [he]
        exact rowsAgree_refl ls
      · rw [place_eq_write ls ri text al hrow hfnb hlf]
        have hfl : first < lastNB row := not_le.mp hlf
        obtain ⟨hb1, hb2⟩ := placeStart_bounds row first text al hfl
        set S := placeStart row first text al with hSdef
        set T2 := placeText2 row first text with hT2def
        have hrowD : ls.getD ri [] = row := by
          rw [List.getD_eq_getElem?_getD, ← List.get?_eq_getElem?, hrow]
          rfl
        have hrilt : ri < ls.length := by
          by_contra hge
          rw [List.get?_eq_getElem?, List.getElem?_eq_none (by omega)] at hrow
          exact Option.noConfusion hrow
        have hfirst := (firstNB_eq_some_iff row first).mp hfnb
        have hunch : ∀ k : ℕ, (k < first + 1 ∨ lastNB row ≤ k) →
            (writeFrom row S T2).getD k ' ' = row.getD k ' ' := by
          intro k hk
          apply writeFrom_getD
          rcases hk with hk | hk
          · left
            omega
          · right
            omega
        have hlen2 : (writeFrom row S T2).length = row.length := writeFrom_length _ _ _
        have hfnb2 : firstNB (writeFrom row S T2) = some first := by
          apply firstNB_congr hlen2 _ hfnb
          intro m hm
          exact hunch m (Or.inl (by omega))
        have hrevsome : ∃ frev, firstNB row.reverse = some frev := by
          rcases hx : firstNB row.reverse with _ | frev
          · exfalso
            have hall := (firstNB_eq_none_iff row.reverse).mp hx
            have hmem : row.getD first ' ' ∈ row := by
              rw [List.getD_eq_getElem _ _ hfirst.1]
              exact List.getElem_mem _
            exact hfirst.2.1 (hall _ (List.mem_reverse.mpr hmem))
          · exact ⟨frev, rfl⟩
        obtain ⟨frev, hfrev⟩ := hrevsome
        have hfrevlt : frev < row.length := by
          have := (firstNB_eq_some_iff row.reverse frev).mp hfrev
          simpa using this.1
        have hlastval : lastNB row = row.length - 1 - frev := by
          rw [lastNB, hfrev]
          rfl
        have hfnb2rev : firstNB (writeFrom row S T2).reverse = some frev := by
          apply firstNB_congr (by simpa using hlen2) _ hfrev
          intro m hm
          have hmlen : m < row.length := by omega
          rw [getD_reverse_eq (by omega : m < (writeFrom row S T2).length),
            getD_reverse_eq hmlen, hlen2]
          apply hunch
          right
          omega
        refine ⟨by simp, fun r => ?_⟩
        by_cases hr : r = ri
        · subst hr
          have hset : (ls.set r (writeFrom row S T2)).getD r [] = writeFrom row S T2 := by
            rw [List.getD_eq_getElem?_getD]
            simp [List.getElem?_set, hrilt]
          rw [hset, hrowD]
          refine ⟨hlen2, by rw [hfnb2, hfnb], by rw [hfnb2rev, hfrev], ?_⟩
          intro k hk
          rcases hk first hfnb with h | h
          · exact hunch k (Or.inl (by omega))
          · exact hunch k (Or.inr (by omega))
        · have hset : (ls.set ri (writeFrom row S T2)).getD r [] = ls.getD r [] := by
            rw [List.getD_eq_getElem?_getD, List.getD_eq_getElem?_getD,
              List.getElem?_set_ne (Ne.symm hr)]
          rw [hset]
          exact ⟨rfl, rfl, rfl, fun _ _ => rfl⟩

lemma applyLabels_agrees (cfg : PieCfg) (ws : List Wedge) (lines : List (List Char)) :
    RowsAgree lines (applyLabels cfg ws lines) := by
  rw [applyLabels]
  split_ifs with h
  · have hfold : ∀ (ps : List (Wedge × (ℕ × Align))) (cur : List (List Char)),
        RowsAgree lines cur →
        RowsAgree lines (ps.foldl
          (fun ls wt => place ls wt.2.1 (fmt cfg.label_mode wt.1) wt.2.2) cur) := by
      intro ps
      induction ps with
      | nil => intro cur hc; exact hc
      | cons p t ih =>
        intro cur hc
        rw [List.foldl_cons]
        exact ih _ (rowsAgree_trans hc (place_agrees _ _ _ _))
    exact hfold _ lines (rowsAgree_refl lines)
  · exact rowsAgree_refl lines

/-- C6: label placement never changes a character at a column outside a
row's originally rendered span (first to last non-blank column); columns
strictly before the first or strictly after the last non-blank column hold
the same character before and after the whole label overlay (on an
all-blank row nothing changes at all, the hypothesis then being vacuous at
every column).  `pie` applies exactly this overlay to the rasterized rows. -/
theorem label_overlay_outside_span (cfg : PieCfg) (ws : List Wedge)
    (lines : List (List Char)) (r k : ℕ)
    (hout : ∀ f, firstNB (lines.getD r []) = some f →
      k < f ∨ lastNB (lines.getD r []) < k) :
    ((applyLabels cfg ws lines).getD r []).getD k ' ' = (lines.getD r []).getD k ' ' :=
  (((applyLabels_agrees cfg ws lines).2 r).2.2.2) k hout

/-- Witness for C6: one wedge, default options, a 5-column row whose span
is columns `1..3`; column `0` is unchanged by the overlay. -/
theorem label_overlay_outside_span_witness :
    ((applyLabels {} [⟨"A", 0, 0, '█', 1, 1⟩]
        [[' ', '█', '█', '█', ' ']]).getD 0 []).getD 0 ' ' =
      (([[' ', '█', '█', '█', ' ']] : List (List Char)).getD 0 []).getD 0 ' ' := by
  apply label_overlay_outside_span
  intro f hf
  have hcomp : firstNB (([[' ', '█', '█', '█', ' ']] : List (List Char)).getD 0 []) =
      some 1 := by decide
  rw [hcomp] at hf
  injection hf with hf
  left
  omega

/-- C7: the rasterized body has exactly `2·radius+1` rows, each exactly
`2·radius+1` characters long; the label overlay preserves the number of
rows and every row's length; packing a row into a string keeps its
length. -/
theorem grid_shape (cfg : PieCfg) (ws : List Wedge) :
    (rasterLines cfg ws).length = 2 * cfg.radius + 1 ∧
    (∀ row ∈ rasterLines cfg ws, row.length = 2 * cfg.radius + 1) ∧
    (∀ lines : List (List Char),
      (applyLabels cfg ws lines).length = lines.length ∧
      ∀ r : ℕ, ((applyLabels cfg ws lines).getD r []).length = (lines.getD r []).length) ∧
    (∀ row : List Char, (String.mk row).length = row.length) := by
  refine ⟨by simp [rasterLines], ?_, ?_, fun row => String.length_mk row⟩
  · intro row hrow
    rw [rasterLines] at hrow
    obtain ⟨jj, _, rfl⟩ := List.mem_map.mp hrow
    simp
  · intro lines
    obtain ⟨hl, hr⟩ := applyLabels_agrees cfg ws lines
    exact ⟨hl, fun r => (hr r).1⟩

/-- Witness for C7 at `radius = 1` and the empty wedge list. -/
theorem grid_shape_witness :
    (rasterLines { radius := 1 } []).length = 3 ∧
      ∀ row ∈ rasterLines { radius := 1 } [], row.length = 3 := by
  have h := grid_shape { radius := 1 } []
  refine ⟨h.1.trans (by norm_num), fun row hr => (h.2.1 row hr).trans (by norm_num)⟩

/-! ### Validation sentinels and final assembly (C1, C9) -/

lemma ne_of_no_newline {out : List String} (h2 : 2 ≤ out.length) {e : String}
    (he : '\n' ∉ e.data) : pyJoin "\n" out ≠ e := by
  intro hcontra
  cases out with
  | nil => simp at h2
  | cons a t =>
    cases t with
    | nil => simp at h2
    | cons b t2 =>
      rw [pyJoin] at hcontra
      apply he
      rw [← hcontra, String.data_append, String.data_append]
      refine List.mem_append.mpr (Or.inl (List.mem_append.mpr (Or.inr ?_)))
      decide

lemma pie_valid_eq (labels : List String) (counts : List ℤ) (cfg : PieCfg)
    (hval : ¬(labels = [] ∨ counts = [] ∨ labels.length ≠ counts.length))
    (hpos : 0 < counts.sum) :
    pie labels counts cfg =
      pyJoin "\n"
        ((match cfg.title with
          | some t => if t = "" then [] else [pyCenter t (cfg.radius * 2 + 20) '=', ""]
          | none => []) ++
         (applyLabels cfg (pieWedges labels counts cfg)
            (rasterLines cfg (pieWedges labels counts cfg))).map String.mk ++
         (if cfg.show_legend then [legendLineOf (pieWedges labels counts cfg)] else [])) := by
  rw [pie, if_neg hval, if_neg (not_le.mpr hpos)]
  try rfl

/-- C1: `pie` returns the `EmptyInput` sentinel iff labels/counts are empty
or of different lengths; otherwise the `NonPositiveTotal` sentinel iff the
sum of counts is `≤ 0`; in all remaining cases the result is a normal chart
string distinct from both sentinels.  The two checks are the first two
branches of the function, taken before any wedge or grid is built. -/
theorem pie_validation (labels : List String) (counts : List ℤ) (cfg : PieCfg) :
    (pie labels counts cfg = errInvalid ↔
      labels = [] ∨ counts = [] ∨ labels.length ≠ counts.length) ∧
    (pie labels counts cfg = errNoData ↔
      ¬(labels = [] ∨ counts = [] ∨ labels.length ≠ counts.length) ∧ counts.sum ≤ 0) ∧
    (¬(labels = [] ∨ counts = [] ∨ labels.length ≠ counts.length) → 0 < counts.sum →
      pie labels counts cfg ≠ errInvalid ∧ pie labels counts cfg ≠ errNoData) := by
  have hchart : ¬(labels = [] ∨ counts = [] ∨ labels.length ≠ counts.length) →
      0 < counts.sum →
      pie labels counts cfg ≠ errInvalid ∧ pie labels counts cfg ≠ errNoData := by
    intro hval hpos
    rw [pie_valid_eq labels counts cfg hval hpos]
    set ws := pieWedges labels counts cfg with hws
    set titleL : List String := (match cfg.title with
      | some t => if t = "" then [] else [pyCenter t (cfg.radius * 2 + 20) '=', ""]
      | none => []) with htitleL
    set body : List String :=
      (applyLabels cfg ws (rasterLines cfg ws)).map String.mk with hbody
    set legendL : List String :=
      (if cfg.show_legend then [legendLineOf ws] else []) with hlegendL
    have hraster_len : (rasterLines cfg ws).length = 2 * cfg.radius + 1 := by
      simp [rasterLines]
    have hagre := applyLabels_agrees cfg ws (rasterLines cfg ws)
    have hbody_len : body.length = 2 * cfg.radius + 1 := by
      rw [hbody, List.length_map, hagre.1, hraster_len]
    by_cases h2 : 2 ≤ (titleL ++ body ++ legendL).length
    · exact ⟨ne_of_no_newline h2 (by decide), ne_of_no_newline h2 (by decide)⟩
    · -- a single output line: no title, no legend, radius 0
      have hlen1 : (titleL ++ body ++ legendL).length = 1 := by
        simp only [List.length_append] at h2 ⊢
        omega
      have htl : titleL.length = 0 ∧ legendL.length = 0 ∧ body.length = 1 := by
        simp only [List.length_append] at hlen1
        omega
      have hrad0 : 2 * cfg.radius + 1 = 1 := by
        rw [← hbody_len]
        exact htl.2.2
      obtain ⟨s, hs⟩ := List.length_eq_one.mp htl.2.2
      have htln : titleL = [] := List.eq_nil_of_length_eq_zero htl.1
      have hlgn : legendL = [] := List.eq_nil_of_length_eq_zero htl.2.1
      have hout : titleL ++ body ++ legendL = [s] := by
        rw [htln, hlgn, hs]
        rfl
      rw [hout]
      have hjoin : pyJoin "\n" [s] = s := rfl
      rw [hjoin]
      -- the single row has exactly one character
      obtain ⟨row, hrow⟩ : ∃ row, applyLabels cfg ws (rasterLines cfg ws) = [row] := by
        apply List.length_eq_one.mp
        rw [hagre.1, hraster_len, hrad0]
      have hsrow : s = String.mk row := by
        have : body = [String.mk row] := by rw [hbody, hrow]; rfl
        rw [this] at hs
        injection hs with hs
        rw [hs]
      have hrowlen : row.length = 1 := by
        have h1 := (hagre.2 0).1
        rw [hrow] at h1
        simp only [List.getD_cons_zero] at h1
        rw [h1]
        rw [rasterLines, hrad0]
        simp [List.getD_cons_zero]
      have hslen : s.length = 1 := by
        rw [hsrow, String.length_mk, hrowlen]
      constructor
      · intro hcontra
        rw [hcontra] at hslen
        exact absurd hslen (by decide)
      · intro hcontra
        rw [hcontra] at hslen
        exact absurd hslen (by decide)
  refine ⟨?_, ?_, hchart⟩
  · constructor
    · intro h
      by_contra hval
      by_cases hpos : 0 < counts.sum
      · exact (hchart hval hpos).1 h
      · rw [pie, if_neg hval, if_pos (not_lt.mp hpos)] at h
        exact absurd h (by decide)
    · intro hval
      rw [pie, if_pos hval]
  · constructor
    · intro h
      by_cases hval : labels = [] ∨ counts = [] ∨ labels.length ≠ counts.length
      · rw [pie, if_pos hval] at h
        exact absurd h.symm (by decide)
      · refine ⟨hval, ?_⟩
        by_contra hpos
        exact (hchart hval (not_le.mp hpos)).2 h
    · rintro ⟨hval, hle⟩
      rw [pie, if_neg hval, if_pos hle]

/-- Witness for C1 at `labels=["A"]`, `counts=[2]`, default options. -/
theorem pie_validation_witness :
    pie ["A"] [2] {} ≠ errInvalid ∧ pie ["A"] [2] {} ≠ errNoData :=
  (pie_validation ["A"] [2] {}).2.2 (by decide) (by decide)

/-- C9: for every validated input the output joins with newlines, in order:
the title line centered with `'='` to width `2·radius+20` plus one blank
line (when a non-empty title is given); the overlaid raster rows top to
bottom, row `jj` holding grid row `j = jj - radius` for
`jj = 0 .. 2·radius`; and, when the legend is enabled, one line joining the
per-wedge entries `"{glyph} {label} {value} ({pct:.1f}%)"` with `" | "`. -/
theorem pie_assembly (labels : List String) (counts : List ℤ) (cfg : PieCfg)
    (hval : ¬(labels = [] ∨ counts = [] ∨ labels.length ≠ counts.length))
    (hpos : 0 < counts.sum) :
    pie labels counts cfg =
      pyJoin "\n"
        ((match cfg.title with
          | some t => if t = "" then [] else [pyCenter t (cfg.radius * 2 + 20) '=', ""]
          | none => []) ++
         (applyLabels cfg (pieWedges labels counts cfg)
            (rasterLines cfg (pieWedges labels counts cfg))).map String.mk ++
         (if cfg.show_legend then
            [pyJoin " | " ((pieWedges labels counts cfg).map fun w =>
              Char.toString w.ch ++ " " ++ w.label ++ " " ++ toString w.val ++ " (" ++
                fmtFixed1 (w.frac * 100) ++ "%)")]
          else [])) ∧
    (∀ jj : ℕ, jj < 2 * cfg.radius + 1 →
      (rasterLines cfg (pieWedges labels counts cfg)).getD jj [] =
        (List.range (2 * cfg.radius + 1)).map fun ii : ℕ =>
          cellChar cfg (pieWedges labels counts cfg)
            ((ii : ℤ) - (cfg.radius : ℤ)) ((jj : ℤ) - (cfg.radius : ℤ))) := by
  constructor
  · rw [pie_valid_eq labels counts cfg hval hpos]
    rfl
  · intro jj hjj
    rw [rasterLines, List.getD_eq_getElem _ _ (by simpa using hjj)]
    simp

/-- Witness for C9 at `labels=["A"]`, `counts=[2]`, default options. -/
theorem pie_assembly_witness :
    pie ["A"] [2] {} =
      pyJoin "\n"
        ((applyLabels {} (pieWedges ["A"] [2] {})
            (rasterLines {} (pieWedges ["A"] [2] {}))).map String.mk ++
         [pyJoin " | " ((pieWedges ["A"] [2] {}).map fun w =>
            Char.toString w.ch ++ " " ++ w.label ++ " " ++ toString w.val ++ " (" ++
              fmtFixed1 (w.frac * 100) ++ "%)")]) := by
  have h := (pie_assembly ["A"] [2] {} (by decide) (by decide)).1
  simpa using h

/-! ### Single-wedge fill and donut-hole blanking (C5, C8) -/

lemma glyphsOf_ne_nil (cfg : PieCfg) : glyphsOf cfg ≠ [] := by
  rw [glyphsOf]
  cases cfg.chars with
  | none => simp [defaultChars]
  | some l =>
    by_cases h : l = []
    · simp [h, defaultChars]
    · simp [h]

lemma sampleAng_mem (cfg : PieCfg) (i j : ℤ) (d : ℚ × ℚ) :
    sampleAng cfg i j d ∈ Set.Ico 0 (2 * π) := by
  rw [sampleAng]
  have harg := Complex.arg_mem_Ioc ⟨((sampleXY cfg i j d).1 : ℝ), ((sampleXY cfg i j d).2 : ℝ)⟩
  have hpi := Real.pi_pos
  exact orient_mem _ _ (by rw [atan2]; have := harg.1; linarith)
    (by rw [atan2]; have := harg.2; linarith)

lemma single_wedge_char {w : Wedge} (hw0 : w.a0 = 0) (hw1 : w.a1 = 2 * π)
    {ang : ℝ} (hang : ang ∈ Set.Ico 0 (2 * π)) :
    wedge_char [w] ang = w.ch := by
  rw [wedge_char, if_pos (Or.inl ⟨by rw [hw0]; exact hang.1, by rw [hw1]; exact hang.2⟩)]

lemma pieWedges_single (l : String) (c : ℤ) (cfg : PieCfg) :
    pieWedges [l] [c] cfg =
      [⟨l, 0, 0 + 2 * π * (((c : ℚ) / (c : ℚ) : ℚ) : ℝ),
        (glyphsOf cfg).getD (0 % (glyphsOf cfg).length) ' ', (c : ℚ) / (c : ℚ), c⟩] := by
  rw [pieWedges, show ([c] : List ℤ).sum = c by simp]
  rfl

lemma cellChar_majority (cfg : PieCfg) (ws : List Wedge) (i j : ℤ)
    (hne : keptChars cfg ws i j ≠ [])
    (hnb : cfg.border = none ∨
      borderCount cfg i j ≤ (keptChars cfg ws i j).length / 3) :
    cellChar cfg ws i j = firstMax (buildVotes (keptChars cfg ws i j)) := by
  have hlen : (keptChars cfg ws i j).length ≠ 0 := by
    simpa [List.length_eq_zero] using hne
  rw [cellChar, sampleCell_eq]
  rcases hnb with hnone | hle
  · simp [resolveCell, hnone, hlen]
  · cases hbord : cfg.border with
    | none => simp [resolveCell, hbord, hlen]
    | some b2 =>
      simp only [resolveCell, hbord]
      rw [if_neg hlen, if_neg (by omega)]

lemma fmtFixed1_hundred : fmtFixed1 ((1 : ℚ) * 100) = "100.0" := by
  have h1 : ((1 : ℚ) * 100) * 10 = 1000 := by norm_num
  rw [fmtFixed1, h1]
  have h2 : roundHalfEven 1000 = 1000 := by
    rw [roundHalfEven]
    norm_num
  rw [h2]
  decide

/-- C5 (amended): for the scenario `labels=["A"], counts=[10]`,
`radius = 4`, defaults otherwise, the legend line is exactly
`"█ A 10 (100.0%)"`; in general, for a single wedge covering 100% of the
input, every non-blank cell that the border vote does not claim renders
the wedge's glyph, and the legend line is
`"{glyph} {label} {value} (100.0%)"` (cells whose border vote exceeds a
third of their inside samples render the border glyph instead — see the
counterexample). -/
theorem single_wedge_fill :
    legendLineOf (pieWedges ["A"] [10] { radius := 4 }) = "█ A 10 (100.0%)" ∧
    ∀ (l : String) (c : ℤ) (cfg : PieCfg), 0 < c →
      (legendLineOf (pieWedges [l] [c] cfg) =
        Char.toString ((glyphsOf cfg).getD 0 ' ') ++ " " ++ l ++ " " ++ toString c ++
          " (100.0%)") ∧
      ∀ i j : ℤ, keptChars cfg (pieWedges [l] [c] cfg) i j ≠ [] →
        (cfg.border = none ∨
          borderCount cfg i j ≤ (keptChars cfg (pieWedges [l] [c] cfg) i j).length / 3) →
        cellChar cfg (pieWedges [l] [c] cfg) i j = (glyphsOf cfg).getD 0 ' ' := by
  have hmain : ∀ (l : String) (c : ℤ) (cfg : PieCfg), 0 < c →
      (legendLineOf (pieWedges [l] [c] cfg) =
        Char.toString ((glyphsOf cfg).getD 0 ' ') ++ " " ++ l ++ " " ++ toString c ++
          " (100.0%)") ∧
      ∀ i j : ℤ, keptChars cfg (pieWedges [l] [c] cfg) i j ≠ [] →
        (cfg.border = none ∨
          borderCount cfg i j ≤ (keptChars cfg (pieWedges [l] [c] cfg) i j).length / 3) →
        cellChar cfg (pieWedges [l] [c] cfg) i j = (glyphsOf cfg).getD 0 ' ' := by
    intro l c cfg hc
    have hfrac : ((c : ℚ) / (c : ℚ)) = 1 := by
      apply div_self
      exact_mod_cast hc.ne'
    have hmod : 0 % (glyphsOf cfg).length = 0 := Nat.zero_mod _
    have hws := pieWedges_single l c cfg
    constructor
    · rw [hws, legendLineOf]
      show legendEntry _ = _
      rw [legendEntry]
      simp only [hfrac, hmod]
      rw [fmtFixed1_hundred]
      simp only [String.append_assoc]
      congr 1
    · intro i j hne hnb
      rw [cellChar_majority cfg _ i j hne hnb]
      have hkeptall : ∀ ch ∈ keptChars cfg (pieWedges [l] [c] cfg) i j,
          ch = (glyphsOf cfg).getD 0 ' ' := by
        intro ch hch
        rw [keptChars] at hch
        obtain ⟨d, _, hd⟩ := List.mem_filterMap.mp hch
        by_cases hdis : discards cfg i j d
        · rw [if_pos hdis] at hd
          exact Option.noConfusion hd
        · rw [if_neg hdis] at hd
          injection hd with hd
          rw [← hd, hws]
          rw [single_wedge_char (by rfl) ?ha1 (sampleAng_mem cfg i j d)]
          · rw [hmod]
          · show (0 : ℝ) + 2 * π * _ = 2 * π
            rw [hfrac]
            push_cast
            ring
      have hfm := firstMax_spec _ hne
      exact hkeptall _ hfm.1
  refine ⟨?_, hmain⟩
  have h := (hmain "A" 10 { radius := 4 } (by norm_num)).1
  rw [h]
  decide

lemma samplePairs_one (cfg : PieCfg) (hs : cfg.samples = 1) :
    samplePairs cfg = [(0, 0)] := by
  have hoff : offsets cfg = [0] := by
    rw [offsets, hs, show List.range 1 = [0] from rfl]
    norm_num [stepOf, hs]
  rw [samplePairs, hoff]
  rfl

lemma rOf_one : rOf 1 0 = 1 := by
  rw [rOf]
  push_cast
  norm_num

lemma rOf_zero : rOf 0 0 = 0 := by
  rw [rOf]
  push_cast
  norm_num

lemma cell_single_sample_border (cfg : PieCfg) (ws : List Wedge) (i j : ℤ) (b : Char)
    (hsp : samplePairs cfg = [(0, 0)])
    (hbord : cfg.border = some b)
    (hnd : ¬discards cfg i j (0, 0))
    (hbh : borderHit cfg i j (0, 0)) :
    cellChar cfg ws i j = b := by
  have hsc : sampleCell cfg ws i j =
      ([(wedge_char ws (sampleAng cfg i j (0, 0)), 1)], 1, 1) := by
    rw [sampleCell, hsp, List.foldl_cons, List.foldl_nil]
    simp only [sampleStep, if_neg hnd, if_pos hbh]
    rfl
  rw [cellChar, hsc]
  simp [resolveCell, hbord]

/-- C5 counterexample: with `labels=["A"], counts=[1]`, `radius = 1`,
`samples = 1`, default border `'·'`: cell `(1, 0)` is non-blank but renders
the border glyph `'·'`, not the single 100% wedge's glyph `'█'` — "every
non-blank cell of the disk is filled with that wedge's glyph" fails. -/
theorem single_wedge_fill_cex :
    cellChar { radius := 1, samples := 1 }
        (pieWedges ["A"] [1] { radius := 1, samples := 1 }) 1 0 ≠ ' ' ∧
    cellChar { radius := 1, samples := 1 }
        (pieWedges ["A"] [1] { radius := 1, samples := 1 }) 1 0 ≠ '█' := by
  have hxy : sampleXY { radius := 1, samples := 1 } 1 0 (0, 0) = (1, 0) := by
    norm_num [sampleXY]
  have hcell : cellChar { radius := 1, samples := 1 }
      (pieWedges ["A"] [1] { radius := 1, samples := 1 }) 1 0 = '·' := by
    apply cell_single_sample_border
    · exact samplePairs_one _ rfl
    · rfl
    · simp only [discards, hxy]
      rw [rOf_one]
      push_neg
      constructor
      · norm_num [epsQ]
      · norm_num [innerOf, epsQ]
    · refine ⟨rfl, Or.inl ?_⟩
      simp only [hxy]
      rw [rOf_one]
      norm_num
  rw [hcell]
  exact ⟨by decide, by decide⟩

/-- C8 (amended): every cell all of whose supersampling points satisfy
`r < inner - 1e-6` renders blank (the source keeps a sample whenever
`r ≥ inner - 1e-6`, so the `1e-6` slack must appear in the condition;
without it the property fails, see the counterexample). -/
theorem hole_blank (cfg : PieCfg) (ws : List Wedge) (i j : ℤ)
    (hhole : 0 < cfg.hole)
    (hall : ∀ d ∈ samplePairs cfg,
      rOf (sampleXY cfg i j d).1 (sampleXY cfg i j d).2 <
        (innerOf cfg : ℝ) - (epsQ : ℝ)) :
    cellChar cfg ws i j = ' ' := by
  have hkept : keptChars cfg ws i j = [] := by
    rw [keptChars, List.filterMap_eq_nil]
    intro d hd
    rw [if_pos (show discards cfg i j d from Or.inr (hall d hd))]
  rw [cellChar, sampleCell_eq, hkept]
  simp [resolveCell, buildVotes]

/-- Witness for C8 at `radius = 2`, `hole = 0.99`, one sample per cell:
the center cell's only sample has `r = 0 < 1.98 - 1e-6`, so it is blank. -/
theorem hole_blank_witness :
    cellChar { radius := 2, hole := 99 / 100, samples := 1 } [] 0 0 = ' ' := by
  apply hole_blank
  · norm_num
  · intro d hd
    rw [samplePairs_one _ rfl] at hd
    rw [List.mem_singleton] at hd
    subst hd
    have hxy : sampleXY { radius := 2, hole := 99 / 100, samples := 1 } 0 0 (0, 0) =
        (0, 0) := by
      norm_num [sampleXY]
    rw [hxy]
    rw [rOf_zero]
    norm_num [innerOf, epsQ]

/-- C8 counterexample: `radius = 2`, `hole = 0.50000025` (`inner =
1.0000005`), one sample per cell, input `["A"], [1]`: every sample of cell
`(1, 0)` satisfies `r = 1 < inner`, but `r ≥ inner - 1e-6` keeps the
sample, the border band catches it, and the cell renders `'·'`, not
blank. -/
theorem hole_blank_cex :
    (0 : ℚ) <
      ({ radius := 2, hole := 50000025 / 100000000, samples := 1 } : PieCfg).hole ∧
    (∀ d ∈ samplePairs { radius := 2, hole := 50000025 / 100000000, samples := 1 },
      rOf (sampleXY { radius := 2, hole := 50000025 / 100000000, samples := 1 } 1 0 d).1
          (sampleXY { radius := 2, hole := 50000025 / 100000000, samples := 1 } 1 0 d).2 <
        (innerOf { radius := 2, hole := 50000025 / 100000000, samples := 1 } : ℝ)) ∧
    cellChar { radius := 2, hole := 50000025 / 100000000, samples := 1 }
      (pieWedges ["A"] [1] { radius := 2, hole := 50000025 / 100000000, samples := 1 })
      1 0 ≠ ' ' := by
  have hxy : sampleXY { radius := 2, hole := 50000025 / 100000000, samples := 1 } 1 0
      (0, 0) = (1, 0) := by
    norm_num [sampleXY]
  refine ⟨by norm_num, ?_, ?_⟩
  · intro d hd
    rw [samplePairs_one _ rfl] at hd
    rw [List.mem_singleton] at hd
    subst hd
    rw [hxy, rOf_one]
    norm_num [innerOf]
  · have hcell : cellChar { radius := 2, hole := 50000025 / 100000000, samples := 1 }
        (pieWedges ["A"] [1] { radius := 2, hole := 50000025 / 100000000, samples := 1 })
        1 0 = '·' := by
      apply cell_single_sample_border
      · exact samplePairs_one _ rfl
      · rfl
      · simp only [discards, hxy]
        rw [rOf_one]
        push_neg
        constructor
        · norm_num [epsQ]
        · norm_num [innerOf, epsQ]
      · refine ⟨rfl, Or.inr ⟨?_, ?_⟩⟩
        · norm_num [innerOf]
        · simp only [hxy]
          rw [rOf_one]
          rw [abs_sub_lt_iff]
          constructor
          · norm_num [innerOf]
          · norm_num [innerOf]
    rw [hcell]
    decide

/-- Witness for C5 (amended): the legend-format part at `labels=["B"]`,
`counts=[3]`, defaults; and the fill part at `radius = 1`, one sample,
no border, cell `(0, 0)`. -/
theorem single_wedge_fill_witness :
    legendLineOf (pieWedges ["B"] [3] {}) = "█ B 3 (100.0%)" ∧
    cellChar { radius := 1, samples := 1, border := none }
      (pieWedges ["B"] [3] { radius := 1, samples := 1, border := none }) 0 0 = '█' := by
  constructor
  · have h := (single_wedge_fill.2 "B" 3 {} (by norm_num)).1
    rw [h]
    decide
  · have hxy : sampleXY { radius := 1, samples := 1, border := none } 0 0 (0, 0) =
        (0, 0) := by
      norm_num [sampleXY]
    have hnd : ¬discards { radius := 1, samples := 1, border := none } 0 0 (0, 0) := by
      simp only [discards, hxy]
      rw [rOf_zero]
      push_neg
      constructor
      · norm_num [epsQ]
      · norm_num [innerOf, epsQ]
    have hkept : keptChars { radius := 1, samples := 1, border := none }
        (pieWedges ["B"] [3] { radius := 1, samples := 1, border := none }) 0 0 =
        [wedge_char (pieWedges ["B"] [3] { radius := 1, samples := 1, border := none })
          (sampleAng { radius := 1, samples := 1, border := none } 0 0 (0, 0))] := by
      rw [keptChars, samplePairs_one _ rfl, List.filterMap_cons, if_neg hnd]
      rfl
    have h := (single_wedge_fill.2 "B" 3
      { radius := 1, samples := 1, border := none } (by norm_num)).2 0 0
      (by rw [hkept]; exact List.cons_ne_nil _ _) (Or.inl rfl)
    rw [h]
    decide
